import Mathlib

/-!
# Verification of the `argparser` module

A shallow embedding of `src/argparser.py` (the `Option`/`Command` parsing
engine and the `print_help` formatter), with theorems settling the claims
about it.

Modelling conventions:
* a Python `str` is a `List Char` (`Str`);
* a Python value that may be `None` or a string is an `Option Str`;
  Python truthiness (`None` and `""` are falsy) is `truthyS`;
* callbacks are modelled by recording invocation events (`Event`): the engine
  only calls them and ignores their results, so a run of the engine is fully
  described by the ordered list of invocations it performs;
* the module-level constants are instantiated for a terminal of width ≥ 80,
  so `MAX_LINE_LENGTH = 80` and `MIN_DESCRIPTION_WIDTH = int(80 // 1.618) = 49`.
-/

/-- A Python string, as a list of characters. -/
abbrev Str := List Char

/-- Python truthiness of an optional string: `None` and `""` are falsy. -/
def truthyS : Option Str → Bool
  | none => false
  | some s => !s.isEmpty

/-- `option.arg.startswith("[")` (only reached when `option.arg` is truthy). -/
def startsBracket : Option Str → Bool
  | some ('[' :: _) => true
  | _ => false

/-- `argparser.Option`: data that specifies one of a command's options.
`id` identifies the option's callback in recorded events; `hasCallback`
models whether `callback` is a callable (the engine tests `if option.callback:`). -/
structure Opt where
  id : Nat
  short_name : Option Str
  long_name : Option Str
  arg : Option Str
  description : Str
  hasCallback : Bool
  hidden : Bool
deriving DecidableEq, Repr

/-- A recorded callback invocation: `callback()` when the option has no
argument spec, `callback(oarg)` (where `oarg` may be Python `None`) otherwise. -/
inductive Event where
  | call0 (id : Nat)
  | call1 (id : Nat) (arg : Option Str)
deriving DecidableEq, Repr

/-- State of one `Command.parse` session: `caller` is the list object the
caller passed in (the engine reads it once, at `self.argv = argv.copy()`, and
never writes it); `argv` is the copy `self.argv`, which the short-option
cluster rewrite mutates; plus `self.argc`, `self.argv_index`, `self.operands`
and the recorded callback invocations. -/
structure St where
  caller : List Str
  argv : List Str
  argc : Nat
  idx : Nat
  operands : List Str
  events : List Event
deriving DecidableEq, Repr

/-- `f"Option --{long_name} does not allow an argument."` -/
def msgNoArgLong (n : Str) : Str :=
  "Option --".data ++ n ++ " does not allow an argument.".data

/-- `f"Option --{long_name} requires an argument."` -/
def msgRequiresLong (n : Str) : Str :=
  "Option --".data ++ n ++ " requires an argument.".data

/-- `f"Unknown option: --{long_name}"` -/
def msgUnknownLong (n : Str) : Str := "Unknown option: --".data ++ n

/-- `f"Option -{short_name} requires an argument."` -/
def msgRequiresShort (c : Char) : Str :=
  "Option -".data ++ [c] ++ " requires an argument.".data

/-- `f"Unknown option: -{short_name}"` -/
def msgUnknownShort (c : Char) : Str := "Unknown option: -".data ++ [c]

/-- The events recorded by `if option.callback: [option.callback(oarg) / option.callback()]`:
the callback is called with the option-argument exactly when the option has an
argument spec, with no argument otherwise. -/
def invokeEvents (o : Opt) (oarg : Option Str) : List Event :=
  if o.hasCallback then [if truthyS o.arg then .call1 o.id oarg else .call0 o.id] else []

/-- Record the callback invocation in the session state. -/
def invoke (o : Opt) (oarg : Option Str) (s : St) : St :=
  { s with events := s.events ++ invokeEvents o oarg }

/-- Result of one `Command._parse` call: `stop` is `return False`, `cont` is
`return True`, `err` is `raise ParsingError(msg)` (with the state as mutated
up to the raise). -/
inductive StepRes where
  | stop (s : St)
  | cont (s : St)
  | err (msg : Str) (s : St)
deriving DecidableEq, Repr

/-- Processing of a matched long option `o` (src/argparser.py lines 128-149),
after the token has been split into `long_name` and the attached
option-argument `oarg` (if any). -/
def stepLongFound (long_name : Str) (oarg : Option Str) (o : Opt) (s : St) : StepRes :=
  if oarg.isSome then
    if !truthyS o.arg then .err (msgNoArgLong long_name) s
    else .cont (invoke o oarg { s with idx := s.idx + 1 })
  else if truthyS o.arg && !startsBracket o.arg then
    -- mandatory argument, nothing attached: consume the next element
    if s.idx + 1 ≥ s.argc then .err (msgRequiresLong long_name) { s with idx := s.idx + 1 }
    else .cont (invoke o (some (s.argv.getD (s.idx + 1) [])) { s with idx := s.idx + 2 })
  else .cont (invoke o oarg { s with idx := s.idx + 1 })

/-- Registry lookup of the long-option branch of `Command._parse`
(lines 127-151): the `for ... else` loop over `self.options`. -/
def stepLongGo (opts : List Opt) (long_name : Str) (oarg : Option Str) (s : St) : StepRes :=
  match opts.find? (fun o => o.long_name == some long_name) with
  | none => .err (msgUnknownLong long_name) s
  | some o => stepLongFound long_name oarg o s

/-- Long-option branch of `Command._parse` (src/argparser.py lines 119-151).
`arg` is the current token; the remainder after `--` is split at the first
`=` into the long name and the attached option-argument (if any). -/
def stepLong (opts : List Opt) (arg : Str) (s : St) : StepRes :=
  match (arg.drop 2).findIdx? (fun ch => ch = '=') with
  | some p => stepLongGo opts ((arg.drop 2).take p) (some ((arg.drop 2).drop (p + 1))) s
  | none => stepLongGo opts (arg.drop 2) none s

/-- Tail of the short-option branch (lines 168-186): invoke the callback, then
either rewrite the current token in place (`self.argv[self.argv_index] = "-" + arg[2:]`,
returning with the cursor unmoved) or advance the cursor past the token. -/
def shortFinish (o : Opt) (oarg : Option Str) (arg : Str) (s : St) : StepRes :=
  let s1 := invoke o oarg s
  if !truthyS oarg && arg.length > 2 then
    .cont { s1 with argv := s1.argv.set s1.idx ('-' :: arg.drop 2) }
  else
    .cont { s1 with idx := s1.idx + 1 }

/-- Processing of a matched short option `o` (lines 156-174); `arg` is the
whole current token, the short name is `arg[1]`. -/
def stepShortFound (arg : Str) (o : Opt) (s : St) : StepRes :=
  if truthyS o.arg then
    if arg.length > 2 then
      shortFinish o (some (arg.drop 2)) arg s
    else if !startsBracket o.arg then
      -- mandatory argument, nothing attached: consume the next element
      if s.idx + 1 ≥ s.argc then
        .err (msgRequiresShort (arg.getD 1 ' ')) { s with idx := s.idx + 1 }
      else shortFinish o (some (s.argv.getD (s.idx + 1) [])) arg { s with idx := s.idx + 1 }
    else shortFinish o none arg s
  else shortFinish o none arg s

/-- Short-option branch of `Command._parse` (lines 152-186): registry lookup
by the short name `arg[1]`. -/
def stepShort (opts : List Opt) (arg : Str) (s : St) : StepRes :=
  match opts.find? (fun o => o.short_name == some [arg.getD 1 ' ']) with
  | none => .err (msgUnknownShort (arg.getD 1 ' ')) s
  | some o => stepShortFound arg o s

/-- Classification of the element `arg` at the cursor (`Command._parse`,
src/argparser.py lines 105-186). -/
def stepArg (opts : List Opt) (arg : Str) (s : St) : StepRes :=
  if arg.length = 0 then
    .cont { s with operands := s.operands ++ [arg], idx := s.idx + 1 }
  else if arg = ['-', '-'] then
    -- end of options: append every remaining element to the operands
    .stop { s with
      operands := s.operands ++ (s.argv.drop (s.idx + 1)).take (s.argc - (s.idx + 1)),
      idx := s.argc }
  else if arg.getD 0 ' ' = '-' then
    if arg.length = 1 then
      .cont { s with operands := s.operands ++ [arg], idx := s.idx + 1 }
    else if arg.getD 1 ' ' = '-' then
      stepLong opts arg s
    else
      stepShort opts arg s
  else
    .cont { s with operands := s.operands ++ [arg], idx := s.idx + 1 }

/-- One call of `Command._parse` (src/argparser.py lines 92-186). -/
def step (opts : List Opt) (s : St) : StepRes :=
  if s.idx ≥ s.argc then .stop s
  else stepArg opts (s.argv.getD s.idx []) s

/-- The session state carried by a `_parse` result. -/
def resSt : StepRes → St
  | .stop s => s
  | .cont s => s
  | .err _ s => s

/-- Total length of a list of strings. -/
def sumLen (l : List Str) : Nat := (l.map List.length).sum

/-- Measure of the remaining work of the `while self._parse()` loop: number of
unscanned cursor positions plus total length of the unscanned tokens (the
cluster rewrite shortens the current token, every other continuation advances
the cursor). -/
def meas (s : St) : Nat := (s.argc - s.idx) + sumLen (s.argv.drop s.idx)

/-- The `while self._parse(): pass` loop, with explicit fuel. -/
def runLoopF (opts : List Opt) : Nat → St → Option (Option Str × St)
  | 0, _ => none
  | fuel + 1, s =>
    match step opts s with
    | .stop s' => some (none, s')
    | .err m s' => some (some m, s')
    | .cont s' => runLoopF opts fuel s'

/-- The `while self._parse(): pass` loop together with the `except ParsingError`
handler: the raised message (if any) and the final session state. `meas s + 1`
steps always suffice (theorem `runLoopF_isSome` below), so the `getD` default is
never used. -/
def runIt (opts : List Opt) (s : St) : Option Str × St :=
  (runLoopF opts (meas s + 1) s).getD (none, s)

/-- Observable outcome of `Command.parse`: the return value (`error`), the
accumulated `self.operands`, the callback invocations, and the message printed
to stderr (if any). -/
structure ParseResult where
  error : Bool
  operands : List Str
  events : List Event
  errMsg : Option Str
deriving DecidableEq, Repr

/-- The session state set up by `Command.parse`: operands cleared, `self.argv`
a copy of the caller's list, `self.argc = len(argv)`, cursor at 1. -/
def initSt (argv : List Str) : St :=
  { caller := argv, argv := argv, argc := argv.length, idx := 1,
    operands := [], events := [] }

/-- `Command.parse` (src/argparser.py lines 188-212): returns `error = true`
iff a `ParsingError` was raised. -/
def parse (opts : List Opt) (argv : List Str) : ParseResult :=
  match runIt opts (initSt argv) with
  | (none, s) => ⟨false, s.operands, s.events, none⟩
  | (some m, s) => ⟨true, s.operands, s.events, some m⟩

/-- Final session state of a `Command.parse` call (exposing `caller`). -/
def parseFinal (opts : List Opt) (argv : List Str) : St :=
  (runIt opts (initSt argv)).2

/-! ## Cursor-free view of the session

The loop only ever inspects `argv` at or after the cursor, and `argc` equals
`len(argv)` throughout a session, so its behaviour factors through the
unscanned suffix `argv[idx:]`. `astep` is `step` expressed on that view
(theorem `step_abs` below); the claims about symbolic argument lists are
proved against it and transported to `parse`. -/

/-- Cursor-free session state: unscanned suffix, operands, invocations. -/
structure AbsSt where
  rem : List Str
  ops : List Str
  evs : List Event
deriving DecidableEq, Repr

/-- Result of `astep`, mirroring `StepRes`. -/
inductive AStepRes where
  | stop (a : AbsSt)
  | cont (a : AbsSt)
  | err (msg : Str) (a : AbsSt)
deriving DecidableEq, Repr

/-- `invoke` on the cursor-free state. -/
def ainvoke (o : Opt) (oarg : Option Str) (a : AbsSt) : AbsSt :=
  { a with evs := a.evs ++ invokeEvents o oarg }

/-- `shortFinish` on the cursor-free state: `rest` is the list of tokens after
the cursor (after any inner consumption of the next element). -/
def ashortFinish (o : Opt) (oarg : Option Str) (arg : Str) (rest : List Str)
    (a : AbsSt) : AStepRes :=
  let a1 := ainvoke o oarg a
  if !truthyS oarg && arg.length > 2 then
    .cont { a1 with rem := ('-' :: arg.drop 2) :: rest }
  else
    .cont { a1 with rem := rest }

/-- `stepLongFound` on the cursor-free state. -/
def astepLongFound (long_name : Str) (oarg : Option Str) (o : Opt) (rest : List Str)
    (a : AbsSt) : AStepRes :=
  if oarg.isSome then
    if !truthyS o.arg then .err (msgNoArgLong long_name) a
    else .cont { a with rem := rest, evs := a.evs ++ invokeEvents o oarg }
  else if truthyS o.arg && !startsBracket o.arg then
    match rest with
    | [] => .err (msgRequiresLong long_name) { a with rem := [] }
    | v :: rest2 => .cont { a with rem := rest2, evs := a.evs ++ invokeEvents o (some v) }
  else .cont { a with rem := rest, evs := a.evs ++ invokeEvents o oarg }

/-- `stepLongGo` on the cursor-free state. -/
def astepLongGo (opts : List Opt) (long_name : Str) (oarg : Option Str) (rest : List Str)
    (a : AbsSt) : AStepRes :=
  match opts.find? (fun o => o.long_name == some long_name) with
  | none => .err (msgUnknownLong long_name) a
  | some o => astepLongFound long_name oarg o rest a

/-- `stepLong` on the cursor-free state. -/
def astepLong (opts : List Opt) (arg : Str) (rest : List Str) (a : AbsSt) : AStepRes :=
  match (arg.drop 2).findIdx? (fun ch => ch = '=') with
  | some p => astepLongGo opts ((arg.drop 2).take p) (some ((arg.drop 2).drop (p + 1))) rest a
  | none => astepLongGo opts (arg.drop 2) none rest a

/-- `stepShortFound` on the cursor-free state. -/
def astepShortFound (arg : Str) (o : Opt) (rest : List Str) (a : AbsSt) : AStepRes :=
  if truthyS o.arg then
    if arg.length > 2 then
      ashortFinish o (some (arg.drop 2)) arg rest a
    else if !startsBracket o.arg then
      match rest with
      | [] => .err (msgRequiresShort (arg.getD 1 ' ')) { a with rem := [] }
      | v :: rest2 => ashortFinish o (some v) arg rest2 a
    else ashortFinish o none arg rest a
  else ashortFinish o none arg rest a

/-- `stepShort` on the cursor-free state. -/
def astepShort (opts : List Opt) (arg : Str) (rest : List Str) (a : AbsSt) : AStepRes :=
  match opts.find? (fun o => o.short_name == some [arg.getD 1 ' ']) with
  | none => .err (msgUnknownShort (arg.getD 1 ' ')) a
  | some o => astepShortFound arg o rest a

/-- `stepArg` on the cursor-free state. -/
def astepArg (opts : List Opt) (arg : Str) (rest : List Str) (a : AbsSt) : AStepRes :=
  if arg.length = 0 then .cont ⟨rest, a.ops ++ [arg], a.evs⟩
  else if arg = ['-', '-'] then .stop ⟨[], a.ops ++ rest, a.evs⟩
  else if arg.getD 0 ' ' = '-' then
    if arg.length = 1 then .cont ⟨rest, a.ops ++ [arg], a.evs⟩
    else if arg.getD 1 ' ' = '-' then astepLong opts arg rest a
    else astepShort opts arg rest a
  else .cont ⟨rest, a.ops ++ [arg], a.evs⟩

/-- `step` on the cursor-free state. -/
def astep (opts : List Opt) (a : AbsSt) : AStepRes :=
  match a.rem with
  | [] => .stop a
  | arg :: rest => astepArg opts arg rest a

/-- Measure for the cursor-free loop. -/
def measA (a : AbsSt) : Nat := a.rem.length + sumLen a.rem

/-- The parse loop on the cursor-free state, with explicit fuel. -/
def runAbsF (opts : List Opt) : Nat → AbsSt → Option (Option Str × AbsSt)
  | 0, _ => none
  | fuel + 1, a =>
    match astep opts a with
    | .stop a' => some (none, a')
    | .err m a' => some (some m, a')
    | .cont a' => runAbsF opts fuel a'

/-- The parse loop on the cursor-free state (`measA a + 1` steps always
suffice, theorem `runAbsF_isSome` below). -/
def runAbs (opts : List Opt) (a : AbsSt) : Option Str × AbsSt :=
  (runAbsF opts (measA a + 1) a).getD (none, a)

/-- The cursor-free state a session state denotes. -/
def absOf (s : St) : AbsSt := ⟨s.argv.drop s.idx, s.operands, s.events⟩

/-- `argc` tracks `len(self.argv)` throughout a session. -/
def StInv (s : St) : Prop := s.argc = s.argv.length

/-- The simulation relation between `_parse` results and their cursor-free
counterparts: identical classification, messages, operands and invocations,
and (for continuations) matching states with `argc` still tracking
`len(self.argv)`. -/
def absRel : StepRes → AStepRes → Prop
  | .stop s, .stop a => s.operands = a.ops ∧ s.events = a.evs
  | .cont s, .cont a => StInv s ∧ absOf s = a
  | .err m s, .err m' a => m = m' ∧ s.operands = a.ops ∧ s.events = a.evs
  | _, _ => False

example : parse [] ["prog".data, "a".data] =
    ⟨false, ["a".data], [], none⟩ := by decide

example :
    parse [⟨0, some ['v'], some "verbose".data, none, [], true, false⟩]
      ["prog".data, "-v".data, "x".data] =
    ⟨false, ["x".data], [.call0 0], none⟩ := by decide

/-- `Command.parse` computed through the cursor-free loop, starting from the
suffix `argv[1:]` (element 0 is the command name and is never scanned):
`parse_eq_parseA` below proves it equal to `parse`. -/
def parseA (opts : List Opt) (argv : List Str) : ParseResult :=
  match runAbs opts ⟨argv.drop 1, [], []⟩ with
  | (none, a) => ⟨false, a.ops, a.evs, none⟩
  | (some m, a) => ⟨true, a.ops, a.evs, some m⟩

/-- The cursor-free state carried by an `astep` result. -/
def aresSt : AStepRes → AbsSt
  | .stop a => a
  | .cont a => a
  | .err _ a => a

/-! ### Example registry (mirroring src/example.py) used by concrete witnesses -/

/-- `-v, --verbose`: no argument. -/
def exOptV : Opt := ⟨0, some ['v'], some "verbose".data, none, "Enable verbose program output.".data, true, false⟩

/-- `-f, --file FILENAME`: mandatory argument. -/
def exOptF : Opt := ⟨1, some ['f'], some "file".data, some "FILENAME".data, "Write output to file FILENAME.".data, true, false⟩

/-- `-l, --log[=LOG_FILE]`: optional argument. -/
def exOptL : Opt := ⟨2, some ['l'], some "log".data, some "[LOG_FILE]".data, "Enable logging.".data, true, false⟩

/-- `-a`: no argument. -/
def exOptA : Opt := ⟨3, some ['a'], none, none, "Flag a.".data, true, false⟩

/-- `-b`: no argument. -/
def exOptB : Opt := ⟨4, some ['b'], none, none, "Flag b.".data, true, false⟩

/-- An example option registry. -/
def exReg : List Opt := [exOptV, exOptF, exOptL, exOptA, exOptB]

/-! ## Help formatter (`print_help` and its helpers)

The module constants are instantiated for a terminal at least 80 columns wide
(terminal width is an injected configuration value): `MAX_LINE_LENGTH = 80`
and `MIN_DESCRIPTION_WIDTH = int(80 // 1.618) = 49` (the float computation
`80 // 1.618` evaluates to exactly `49.0`). -/

/-- `shutil.get_terminal_size()[0]`, for a terminal at least 80 columns wide. -/
def MAX_COLUMNS : Nat := 80

/-- `MAX_LINE_LENGTH = 80 if MAX_COLUMNS > 80 else MAX_COLUMNS`. -/
def MAX_LINE_LENGTH : Nat := if MAX_COLUMNS > 80 then 80 else MAX_COLUMNS

/-- `MIN_DESCRIPTION_WIDTH = int(MAX_LINE_LENGTH // 1.618) = 49`. -/
def MIN_DESCRIPTION_WIDTH : Nat := 49

/-- `argparser.Command`'s data, as `print_help` consumes it. -/
structure Cmd where
  name : Str
  usage : Str
  manual : Option Str
  options : List Opt
deriving Repr

/-- `create_option_usage` (src/argparser.py lines 224-248): the left-hand
usage fragment of one option, without its description. -/
def createOptionUsage (o : Opt) : Str :=
  let s := "  ".data
  let s := if truthyS o.short_name then
      (s ++ '-' :: o.short_name.getD []) ++
        (if !truthyS o.long_name then
          (if truthyS o.arg then
            (if startsBracket o.arg then o.arg.getD [] else ' ' :: o.arg.getD [])
          else [])
        else ", ".data)
    else s ++ "    ".data
  let s := if truthyS o.long_name then
      (s ++ '-' :: '-' :: o.long_name.getD []) ++
        (if truthyS o.arg then
          (if startsBracket o.arg then '[' :: '=' :: (o.arg.getD []).tail
           else ' ' :: o.arg.getD [])
        else [])
    else s
  s ++ "  ".data

/-- ASCII model of `str.casefold` (the simple lowercase mapping; the names
exercised here are ASCII). -/
def casefold (s : Str) : Str := s.map Char.toLower

/-- Python string comparison `a <= b`: lexicographic on code points. -/
def strLe : Str → Str → Bool
  | [], _ => true
  | _ :: _, [] => false
  | x :: xs, y :: ys =>
    if x.val < y.val then true
    else if y.val < x.val then false
    else strLe xs ys

/-- Insert `x` after every existing entry that compares `le` to it — the
placement a stable sort gives a newly encountered element among equal keys. -/
def stableInsert {α : Type} (le : α → α → Bool) (x : α) : List α → List α
  | [] => [x]
  | y :: ys => if le y x then y :: stableInsert le x ys else x :: y :: ys

/-- Python's stable `list.sort`: process elements left to right, keeping
equal-keyed elements in encounter order. -/
def pySort {α : Type} (le : α → α → Bool) (l : List α) : List α :=
  l.foldl (fun acc x => stableInsert le x acc) []

/-- `create_option_usages` (lines 250-257): usage/description pairs of the
non-hidden options, sorted case-insensitively by the usage fragment. -/
def createOptionUsages (cmd : Cmd) : List (Str × Str) :=
  pySort (fun u1 u2 => strLe (casefold u1.1) (casefold u2.1))
    ((cmd.options.filter (fun o => !o.hidden)).map
      (fun o => (createOptionUsage o, o.description)))

/-- `len(max(option_usages, key=lambda o: len(o[0]))[0])` (line 356): the
length of the longest usage fragment (`max` with a key returns an element of
maximal key, so its length is the maximum length; on an empty sequence Python
`max` raises `ValueError`, handled in `printHelp`). -/
def longestUsageLen (us : List (Str × Str)) : Nat :=
  us.foldl (fun m u => max m u.1.length) 0

/-- The clamped description column of `print_help` (lines 357-358). -/
def descColumn (us : List (Str × Str)) : Nat :=
  if MAX_LINE_LENGTH - longestUsageLen us < MIN_DESCRIPTION_WIDTH then
    MAX_LINE_LENGTH - MIN_DESCRIPTION_WIDTH
  else longestUsageLen us

/-- `get_indent` (lines 269-280): the width of the leading indentation,
counting a `-`/`*` bullet marker (whose next character is a space) as
indentation. -/
def getIndentAux : List Char → Bool → Nat
  | [], _ => 0
  | c :: rest, bullet =>
    if !bullet && (c = '-' || c = '*') then
      1 + getIndentAux rest (if rest.headD 'x' = ' ' then true else bullet)
    else if c ≠ ' ' then 0
    else 1 + getIndentAux rest bullet

/-- `get_indent(s)`. -/
def getIndent (s : Str) : Nat := getIndentAux s false

/-- `next_word_len` (lines 282-297): length of the next chunk — consecutive
leading spaces plus the following word; a `\n` is a one-character word at
position 0 and ends the chunk otherwise. -/
def nextWordLenAux : List Char → Bool → Nat → Nat
  | [], _, i => i
  | c :: rest, ign, i =>
    if c = ' ' then
      if ign then i else nextWordLenAux rest ign (i + 1)
    else if c = '\n' then
      (if i = 0 then 1 else i)
    else nextWordLenAux rest true (i + 1)

/-- `next_word_len(s)`. -/
def nextWordLen (s : Str) : Nat := nextWordLenAux s false 0

/-- Python `s[:k]` for an `int` index (negative counts from the end; clamped). -/
def pySliceTo (s : Str) (k : Int) : Str :=
  s.take (if k < 0 then ((s.length : Int) + k).toNat else k.toNat)

/-- Python `s[k:]` for an `int` index (negative counts from the end; clamped). -/
def pySliceFrom (s : Str) (k : Int) : Str :=
  s.drop (if k < 0 then ((s.length : Int) + k).toNat else k.toNat)

/-- Loop state of `print_block` (lines 299-346): the remaining `string`, the
output column, the carried `indentation`, the `linebreak_encountered` flag,
and the text emitted so far. -/
structure BlockSt where
  string : Str
  col : Nat
  indentation : Nat
  linebreak : Bool
  out : Str
deriving Repr, DecidableEq

/-- Result of the `if col == 0:` block: `more` is Python's `continue`, `go`
falls through to the word-emission logic. -/
inductive ColRes where
  | more (s : BlockSt)
  | go (s : BlockSt)
deriving Repr, DecidableEq

/-- The `if col == 0:` block (lines 320-332): emit `start_col` spaces plus the
carried indentation; then, right after an explicit line break, measure new
carried indentation from the string's leading spaces; otherwise drop a single
leading space and continue. -/
def colZero (startCol : Nat) (s : BlockSt) : ColRes :=
  let col := startCol
  let out := s.out ++ List.replicate startCol ' '
  let col := if s.indentation ≠ 0 then col + s.indentation else col
  let out := if s.indentation ≠ 0 then out ++ List.replicate s.indentation ' ' else out
  if s.string.headD '\n' = ' ' then
    if s.linebreak then
      .go { s with out := out, col := col,
                   indentation := getIndent s.string, linebreak := false }
    else
      .more { s with out := out, col := col, string := s.string.tail }
  else
    .go { s with out := out, col := col, linebreak := false }

/-- The `if string[0] == "\n":` branch (lines 312-318): emit the line break,
consume it, and remember it (resetting the carried indentation). -/
def nlStep (s : BlockSt) : BlockSt :=
  { s with out := s.out ++ ['\n'], col := 0,
           string := s.string.tail, linebreak := true, indentation := 0 }

/-- The final word-emission branch (lines 343-345): the chunk fits, print it
and advance the column. -/
def wordFit (s' : BlockSt) : BlockSt :=
  { s' with
      out := s'.out ++ s'.string.take (nextWordLen s'.string),
      string := s'.string.drop (nextWordLen s'.string),
      col := s'.col + nextWordLen s'.string }

/-- The hard-split branch (lines 336-338 then 339-341): the cursor is at a
line start and the chunk cannot fit a whole line, so the line is filled to
`MAX_LINE_LENGTH` and the chunk is cut (Python slicing with a possibly
negative `remaining_cols`). -/
def wordSplit (s' : BlockSt) : BlockSt :=
  { s' with
      out := (s'.out ++ pySliceTo s'.string ((MAX_LINE_LENGTH : Int) - (s'.col : Int)))
        ++ ['\n'],
      string := pySliceFrom s'.string ((MAX_LINE_LENGTH : Int) - (s'.col : Int)),
      col := 0 }

/-- The wrap branch (lines 339-341 alone): the chunk does not fit mid-line,
emit a bare line break without consuming anything. -/
def wordNL (s' : BlockSt) : BlockSt :=
  { s' with out := s'.out ++ ['\n'], col := 0 }

/-- Lines 334-345: decide between `wordSplit`, `wordNL` and `wordFit`. -/
def wordStep (startCol : Nat) (s' : BlockSt) : BlockSt :=
  if (nextWordLen s'.string : Int) > (MAX_LINE_LENGTH : Int) - (s'.col : Int) then
    if s'.col = startCol ∨ (s'.indentation ≠ 0 ∧ s'.col = startCol + s'.indentation) then
      wordSplit s'
    else wordNL s'
  else wordFit s'

/-- One iteration of the `while True:` loop of `print_block` (lines 307-345);
`none` is `break` (the next chunk is empty, i.e. the string is exhausted). -/
def blockIter (startCol : Nat) (s : BlockSt) : Option BlockSt :=
  if nextWordLen s.string = 0 then none
  else if s.string.headD ' ' = '\n' then some (nlStep s)
  else
    match (if s.col = 0 then colZero startCol s else .go s) with
    | .more s' => some s'
    | .go s' => some (wordStep startCol s')

/-- The `print_block` loop with fuel (the loop can genuinely diverge); after
`break`, the final `print(file=file)` emits a closing newline. -/
def printBlockLoop (startCol : Nat) : Nat → BlockSt → Option Str
  | 0, _ => none
  | fuel + 1, s =>
    match blockIter startCol s with
    | none => some (s.out ++ ['\n'])
    | some s' => printBlockLoop startCol fuel s'

/-- `print_block(string, start_col, indent, file)` (lines 259-346): the text
it emits, or `none` when `fuel` iterations do not finish the loop. -/
def printBlock (fuel : Nat) (string : Str) (start_col indent : Nat) : Option Str :=
  printBlockLoop (if start_col > indent then indent else start_col) fuel
    { string := string, col := start_col, indentation := 0, linebreak := false, out := [] }

/-- One entry of the `Options:` section (lines 360-368): the usage fragment
padded to the description column, then the word-wrapped description. -/
def renderOption (fuel : Nat) (longest : Nat) (u : Str × Str) : Option Str :=
  match printBlock fuel u.2 (u.1 ++ List.replicate (longest - u.1.length) ' ').length
      longest with
  | none => none
  | some blk => some ((u.1 ++ List.replicate (longest - u.1.length) ' ') ++ blk)

/-- The option entries of the `Options:` section, concatenated. -/
def renderOptions (fuel : Nat) (longest : Nat) : List (Str × Str) → Option Str
  | [] => some []
  | u :: us =>
    match renderOption fuel longest u, renderOptions fuel longest us with
    | some s1, some s2 => some (s1 ++ s2)
    | _, _ => none

/-- `print_help(cmd, file)` (lines 215-368): the full help text; `none` when a
`print_block` loop does not finish within `fuel` iterations, or when every
option is hidden while `cmd.options` is non-empty — then Python's
`max(option_usages, ...)` on line 356 raises `ValueError` on the empty
sequence. -/
def printHelp (fuel : Nat) (cmd : Cmd) : Option Str :=
  let usageLine := "Usage: ".data ++ cmd.name ++ ' ' :: cmd.usage ++ ['\n']
  match (if truthyS cmd.manual then printBlock fuel ('\n' :: cmd.manual.getD []) 0 0
         else some []) with
  | none => none
  | some mp =>
    if cmd.options.isEmpty then some (usageLine ++ mp)
    else
      if (createOptionUsages cmd).isEmpty then none
      else
        match renderOptions fuel (descColumn (createOptionUsages cmd))
            (createOptionUsages cmd) with
        | none => none
        | some body =>
          some (usageLine ++ mp ++ ('\n' :: "Options:".data ++ ['\n']) ++ body)

/-- The rendered manual block (the call on line 350:
`print_block(f"\n{cmd.manual}", 0, 0, file)`). -/
def renderManual (fuel : Nat) (manual : Str) : Option Str :=
  printBlock fuel ('\n' :: manual) 0 0

/-! ### Output-analysis helpers (line structure and word content) -/

/-- Column reached after printing `s` starting from column `k` (a `'\n'`
resets the column to 0). -/
def lastLen : Str → Nat → Nat
  | [], k => k
  | c :: r, k => lastLen r (if c = '\n' then 0 else k + 1)

/-- Every line of `s` CLOSED by a `'\n'` has length at most `w`, counting the
first line from start column `k`; the trailing open line is not checked. -/
def closedOk (w : Nat) : Str → Nat → Bool
  | [], _ => true
  | c :: r, k => if c = '\n' then decide (k ≤ w) && closedOk w r 0 else closedOk w r (k + 1)

/-- Every line of `s` (closed or trailing) has length at most `w`, starting
the first line at column `k`. -/
def okLines (w : Nat) (s : Str) (k : Nat) : Bool :=
  closedOk w s k && decide (lastLen s k ≤ w)

/-- The string contains no line break. -/
def nlFree (s : Str) : Prop := '\n' ∉ s

/-- All suffixes of `s` that start right after a `'\n'` — exactly the strings
`get_indent` can be applied to after an explicit line break. -/
def nlSuffixes : Str → List Str
  | [] => []
  | c :: r => (if c = '\n' then [r] else []) ++ nlSuffixes r

/-- Accumulator-free core of `next_word_len`: the chunk length measured from
a position `≥ 1` (where a `'\n'` ends the chunk unconditionally). -/
def nextWordCore : List Char → Bool → Nat
  | [], _ => 0
  | c :: r, ign =>
    if c = ' ' then (if ign then 0 else 1 + nextWordCore r ign)
    else if c = '\n' then 0
    else 1 + nextWordCore r true

/-- A whitespace character for word splitting (space or line break, the only
whitespace `print_block` manipulates). -/
def isWs (c : Char) : Bool := c = ' ' || c = '\n'

/-- Close the pending reversed word `w` into a one-word list. -/
def flushW (w : Str) : List Str := if w = [] then [] else [w.reverse]

/-- Word splitter worker: `w` is the current word, reversed. -/
def wordsAux : Str → Str → List Str
  | [], w => flushW w
  | c :: r, w => if isWs c then flushW w ++ wordsAux r [] else wordsAux r (c :: w)

/-- The whitespace-separated words of `s`, in order. -/
def wordsOf (s : Str) : List Str := wordsAux s []

/-- Join lines back into a text, closing every line with a `'\n'`. -/
def joinNl : List Str → Str
  | [] => []
  | l :: ls => l ++ '\n' :: joinNl ls

/-- The line `l` starts with at least `k` spaces. -/
def pfxSp (k : Nat) (l : Str) : Prop := l.take k = List.replicate k ' '

/-! ### Concrete commands exercising the formatter claims -/

/-- A command with a single short/long option and no argument: its usage
fragment is 17 characters long, below the description-column clamp. -/
def cmd6 : Cmd := ⟨"p".data, "[OPTION]".data, none,
  [⟨0, some ['v'], some "verbose".data, none, "Enable verbose output.".data, true, false⟩]⟩

/-- A command whose only option is hidden: `create_option_usages` returns the
empty list while `cmd.options` is truthy. -/
def cmd7 : Cmd := ⟨"p".data, "[OPTION]".data, none,
  [⟨0, some ['s'], some "secret".data, none, "A hidden option.".data, true, true⟩]⟩

/-- A command whose `Usage:` line is 88 characters long (print_help emits it
with no width check). -/
def cmd8 : Cmd :=
  ⟨"othello-position-analyzer-with-extremely-verbose-name".data,
   "[OPTION...] POSITION-FILE...".data, none, []⟩

/-- A manual text consisting of one 81-character word: one character longer
than `MAX_LINE_LENGTH`, so `print_block` hard-splits it. -/
def manual81 : Str := List.replicate 81 'a'

/-- Invariant of a `print_block` run bounding every emitted line by
`MAX_LINE_LENGTH`: the column is in range and matches the open line (counted
from the caller's start column `col₀`), all closed lines fit, and the shared
start column `S` plus any indentation (current or measurable after a later
line break) fits a line. -/
def widthInv (col₀ S : Nat) (s : BlockSt) : Prop :=
  s.col ≤ MAX_LINE_LENGTH ∧ lastLen s.out col₀ = s.col ∧
  closedOk MAX_LINE_LENGTH s.out col₀ = true ∧
  S + s.indentation ≤ MAX_LINE_LENGTH ∧
  (∀ b ∈ nlSuffixes s.string, S + getIndent b ≤ MAX_LINE_LENGTH) ∧
  (s.linebreak = true → S + getIndent s.string ≤ MAX_LINE_LENGTH) ∧
  (s.linebreak = true → s.col = 0)

/-- Invariant of a `print_block` run inside a single break-free (bulleted)
paragraph whose measured indentation is `I`: the output decomposes into
closed lines and an open line `cur`, every closed line after the first —
and any nonempty open continuation line — starts with `S + I` spaces. -/
def bulletInv (out₀ : Str) (S I : Nat) (s : BlockSt) : Prop :=
  s.linebreak = false ∧ s.indentation = I ∧ nlFree s.string ∧
  ∃ done cur, s.out = out₀ ++ joinNl done ++ cur ∧ nlFree cur ∧
    (∀ l ∈ done, nlFree l) ∧ (∀ l ∈ done.drop 1, pfxSp (S + I) l) ∧
    (done ≠ [] → cur = [] ∨ pfxSp (S + I) cur) ∧
    cur.length = s.col ∧ (s.col = 0 → s.string ≠ [] ∨ S + I = 0)

/-! ### FORMATTER-DEFS-ANCHOR (formatter definitions are inserted above this line) -/

/-! ## List helpers -/

theorem sumLen_tail_le (l : List Str) : sumLen l.tail ≤ sumLen l := by
  cases l with
  | nil => exact Nat.le_refl _
  | cons x xs => simp [sumLen]

theorem sumLen_drop_succ_le (l : List Str) (i : Nat) :
    sumLen (l.drop (i + 1)) ≤ sumLen (l.drop i) := by
  rw [← List.tail_drop]
  exact sumLen_tail_le _

theorem getD_eq_headD_drop (l : List Str) (i : Nat) (d : Str) :
    l.getD i d = (l.drop i).headD d := by
  induction l generalizing i with
  | nil => simp
  | cons x xs ih =>
    cases i with
    | zero => rfl
    | succ j => simp only [List.getD_cons_succ, List.drop_succ_cons]; exact ih j

theorem drop_set_self : ∀ (l : List Str) (i : Nat) (a : Str), i < l.length →
    (l.set i a).drop i = a :: l.drop (i + 1)
  | _ :: _, 0, _, _ => rfl
  | x :: xs, i + 1, a, h => by
    simp only [List.set_cons_succ, List.drop_succ_cons]
    exact drop_set_self xs i a (by simp only [List.length_cons] at h; omega)

theorem idx_lt_of_drop_cons {l : List Str} {i : Nat} {x : Str} {xs : List Str}
    (h : l.drop i = x :: xs) : i < l.length := by
  by_contra hc
  rw [List.drop_eq_nil_iff.2 (by omega)] at h
  exact List.noConfusion h

/-! ## The loop measure decreases at every continuation -/

theorem meas_lt_of_fields {s s' : St} (hargv : s'.argv = s.argv) (hargc : s'.argc = s.argc)
    (hidx : s'.idx = s.idx + 1 ∨ s'.idx = s.idx + 2) (hlt : s.idx < s.argc) :
    meas s' < meas s := by
  have h1 : sumLen (s.argv.drop (s.idx + 1)) ≤ sumLen (s.argv.drop s.idx) :=
    sumLen_drop_succ_le _ _
  have h2 : sumLen (s.argv.drop (s.idx + 2)) ≤ sumLen (s.argv.drop (s.idx + 1)) := by
    have := sumLen_drop_succ_le s.argv (s.idx + 1)
    simpa using this
  unfold meas
  rcases hidx with h | h <;> rw [hargv, hargc, h] <;> omega

theorem meas_rewrite_lt {s s' : St} {arg : Str} (harg : arg = s.argv.getD s.idx [])
    (hargv : s'.argv = s.argv.set s.idx ('-' :: arg.drop 2)) (hargc : s'.argc = s.argc)
    (hidx : s'.idx = s.idx) (hlen : arg.length > 2) : meas s' < meas s := by
  have hlt : s.idx < s.argv.length := by
    by_contra hc
    rw [List.getD_eq_default _ _ (by omega)] at harg
    subst harg; simp at hlen
  have hd : s.argv.drop s.idx = arg :: s.argv.drop (s.idx + 1) := by
    rw [getD_eq_headD_drop] at harg
    rcases hdrop : s.argv.drop s.idx with _ | ⟨y, ys⟩
    · exact absurd hdrop (by rw [List.drop_eq_nil_iff] at hdrop ⊢; omega)
    · rw [hdrop] at harg
      simp at harg
      rw [harg, ← List.tail_drop, hdrop]
      rfl
  have hset : (s.argv.set s.idx ('-' :: arg.drop 2)).drop s.idx =
      ('-' :: arg.drop 2) :: s.argv.drop (s.idx + 1) := drop_set_self _ _ _ hlt
  unfold meas
  rw [hargv, hargc, hidx, hset, hd]
  simp only [sumLen, List.map_cons, List.sum_cons, List.length_cons]
  have : (arg.drop 2).length = arg.length - 2 := by simp
  omega

theorem stepLongFound_cont_meas {long_name : Str} {oarg : Option Str} {o : Opt}
    {s s' : St} (hlt : s.idx < s.argc)
    (h : stepLongFound long_name oarg o s = .cont s') : meas s' < meas s := by
  unfold stepLongFound at h
  split at h
  case isTrue =>
    split at h
    · exact StepRes.noConfusion h
    · cases h; exact meas_lt_of_fields rfl rfl (Or.inl rfl) hlt
  case isFalse =>
    split at h
    case isTrue =>
      split at h
      · exact StepRes.noConfusion h
      · cases h; exact meas_lt_of_fields rfl rfl (Or.inr rfl) hlt
    case isFalse =>
      cases h; exact meas_lt_of_fields rfl rfl (Or.inl rfl) hlt

theorem stepLongGo_cont_meas {opts : List Opt} {long_name : Str} {oarg : Option Str}
    {s s' : St} (hlt : s.idx < s.argc)
    (h : stepLongGo opts long_name oarg s = .cont s') : meas s' < meas s := by
  unfold stepLongGo at h
  split at h
  · exact StepRes.noConfusion h
  · exact stepLongFound_cont_meas hlt h

theorem shortFinish_cont_meas {o : Opt} {oarg : Option Str} {arg : Str} {s s' : St}
    (harg : arg = s.argv.getD s.idx []) (hlt : s.idx < s.argc)
    (h : shortFinish o oarg arg s = .cont s') : meas s' < meas s := by
  unfold shortFinish at h
  split at h
  next hcl =>
    cases h
    exact meas_rewrite_lt harg rfl rfl rfl (by simp at hcl; omega)
  · cases h; exact meas_lt_of_fields rfl rfl (Or.inl rfl) hlt

theorem stepArg_cont_meas {opts : List Opt} {arg : Str} {s s' : St}
    (harg : arg = s.argv.getD s.idx []) (hlt : s.idx < s.argc)
    (h : stepArg opts arg s = .cont s') : meas s' < meas s := by
  unfold stepArg at h
  split at h
  · cases h; exact meas_lt_of_fields rfl rfl (Or.inl rfl) hlt
  split at h
  · exact StepRes.noConfusion h
  split at h
  case isFalse =>
    cases h; exact meas_lt_of_fields rfl rfl (Or.inl rfl) hlt
  split at h
  · cases h; exact meas_lt_of_fields rfl rfl (Or.inl rfl) hlt
  split at h
  · -- long option
    unfold stepLong at h
    split at h
    · exact stepLongGo_cont_meas hlt h
    · exact stepLongGo_cont_meas hlt h
  · -- short option
    unfold stepShort at h
    split at h
    · exact StepRes.noConfusion h
    unfold stepShortFound at h
    split at h
    case isTrue =>
      split at h
      case isTrue => exact shortFinish_cont_meas harg hlt h
      case isFalse hlen2 =>
        split at h
        case isTrue =>
          split at h
          · exact StepRes.noConfusion h
          · -- the next element was consumed before `shortFinish`; the cluster
            -- branch is unreachable here since `arg.length ≤ 2`
            unfold shortFinish at h
            split at h
            next hcl =>
              simp only [Bool.and_eq_true, decide_eq_true_eq] at hcl
              exact absurd hcl.2 hlen2
            · cases h; exact meas_lt_of_fields rfl rfl (Or.inr rfl) hlt
        case isFalse => exact shortFinish_cont_meas harg hlt h
    case isFalse => exact shortFinish_cont_meas harg hlt h

theorem step_cont_meas {opts : List Opt} {s s' : St} (h : step opts s = .cont s') :
    meas s' < meas s := by
  unfold step at h
  split at h
  · exact StepRes.noConfusion h
  next hguard =>
    exact stepArg_cont_meas rfl (by omega) h

/-! ## The loop runs to completion, and fuel beyond the measure is irrelevant -/

theorem runLoopF_isSome {opts : List Opt} :
    ∀ {fuel : Nat} {s : St}, meas s < fuel → (runLoopF opts fuel s).isSome := by
  intro fuel
  induction fuel with
  | zero => intro s h; omega
  | succ n ih =>
    intro s h
    unfold runLoopF
    cases hstep : step opts s with
    | stop s' => rfl
    | err m s' => rfl
    | cont s' =>
      have := step_cont_meas hstep
      exact ih (by omega)

theorem runLoopF_congr {opts : List Opt} :
    ∀ {fuel fuel' : Nat} {s : St}, meas s < fuel → meas s < fuel' →
      runLoopF opts fuel s = runLoopF opts fuel' s := by
  intro fuel
  induction fuel with
  | zero => intro fuel' s h; omega
  | succ n ih =>
    intro fuel' s h h'
    cases fuel' with
    | zero => omega
    | succ n' =>
      unfold runLoopF
      cases hstep : step opts s with
      | stop s' => rfl
      | err m s' => rfl
      | cont s' =>
        have := step_cont_meas hstep
        exact ih (by omega) (by omega)

theorem runIt_stop {opts : List Opt} {s s' : St} (h : step opts s = .stop s') :
    runIt opts s = (none, s') := by
  unfold runIt runLoopF
  rw [h]
  rfl

theorem runIt_err {opts : List Opt} {s s' : St} {m : Str} (h : step opts s = .err m s') :
    runIt opts s = (some m, s') := by
  unfold runIt runLoopF
  rw [h]
  rfl

theorem runIt_cont {opts : List Opt} {s s' : St} (h : step opts s = .cont s') :
    runIt opts s = runIt opts s' := by
  have hm := step_cont_meas h
  unfold runIt
  conv_lhs => rw [runLoopF]
  rw [h]
  show (runLoopF opts (meas s) s').getD (none, s) = (runLoopF opts (meas s' + 1) s').getD (none, s')
  rw [runLoopF_congr (show meas s' < meas s by omega) (show meas s' < meas s' + 1 by omega)]
  obtain ⟨r, hr⟩ := Option.isSome_iff_exists.mp
    (@runLoopF_isSome opts (meas s' + 1) s' (show meas s' < meas s' + 1 by omega))
  rw [hr]
  rfl

/-! ## The caller's argv object is never written -/

theorem stepLongFound_caller (long_name : Str) (oarg : Option Str) (o : Opt)
    (s : St) : (resSt (stepLongFound long_name oarg o s)).caller = s.caller := by
  unfold stepLongFound
  repeat' split
  all_goals rfl

theorem stepLongGo_caller (opts : List Opt) (long_name : Str) (oarg : Option Str)
    (s : St) : (resSt (stepLongGo opts long_name oarg s)).caller = s.caller := by
  unfold stepLongGo
  split
  · rfl
  · rw [stepLongFound_caller]

theorem shortFinish_caller (o : Opt) (oarg : Option Str) (arg : Str) (s : St) :
    (resSt (shortFinish o oarg arg s)).caller = s.caller := by
  unfold shortFinish
  split <;> rfl

theorem stepShortFound_caller (arg : Str) (o : Opt) (s : St) :
    (resSt (stepShortFound arg o s)).caller = s.caller := by
  unfold stepShortFound
  repeat' split
  all_goals try rfl
  all_goals rw [shortFinish_caller]

/-- One `_parse` call keeps `caller` unchanged: the engine only writes
`self.argv` (the copy made by `parse`), never the caller's list. -/
theorem step_caller (opts : List Opt) (s : St) :
    (resSt (step opts s)).caller = s.caller := by
  unfold step stepArg
  repeat' split
  all_goals try rfl
  · unfold stepLong
    split
    · rw [stepLongGo_caller]
    · rw [stepLongGo_caller]
  · unfold stepShort
    split
    · rfl
    · rw [stepShortFound_caller]

theorem runLoopF_caller {opts : List Opt} :
    ∀ {fuel : Nat} {s : St} {r : Option Str × St},
      runLoopF opts fuel s = some r → r.2.caller = s.caller := by
  intro fuel
  induction fuel with
  | zero => intro s r h; exact Option.noConfusion h
  | succ n ih =>
    intro s r h
    unfold runLoopF at h
    have hc := step_caller opts s
    cases hstep : step opts s with
    | stop s' =>
      rw [hstep] at h hc
      cases h; exact hc
    | err m s' =>
      rw [hstep] at h hc
      cases h; exact hc
    | cont s' =>
      rw [hstep] at h hc
      exact (ih h).trans hc

theorem runIt_caller (opts : List Opt) (s : St) : (runIt opts s).2.caller = s.caller := by
  unfold runIt
  cases hr : runLoopF opts (meas s + 1) s with
  | none => rfl
  | some r => exact runLoopF_caller hr

/-! ## The cursor-free loop: measure, completion, chaining -/

theorem measA_lt_tail {arg : Str} {rest : List Str} {ops ops' : List Str}
    {evs evs' : List Event} :
    measA ⟨rest, ops', evs'⟩ < measA ⟨arg :: rest, ops, evs⟩ := by
  simp [measA, sumLen]
  omega

theorem measA_lt_tail2 {arg v : Str} {rest : List Str} {ops ops' : List Str}
    {evs evs' : List Event} :
    measA ⟨rest, ops', evs'⟩ < measA ⟨arg :: v :: rest, ops, evs⟩ := by
  simp [measA, sumLen]
  omega

theorem measA_lt_cluster {arg : Str} {rest : List Str} {ops ops' : List Str}
    {evs evs' : List Event} (hlen : arg.length > 2) :
    measA ⟨('-' :: arg.drop 2) :: rest, ops', evs'⟩ < measA ⟨arg :: rest, ops, evs⟩ := by
  simp [measA, sumLen]
  omega

theorem ashortFinish_cont_measA {o : Opt} {oarg : Option Str} {arg : Str}
    {rest : List Str} {a a' : AbsSt} (hup : measA ⟨rest, a.ops, a.evs⟩ < measA a)
    (hcl : arg.length > 2 → measA ⟨('-' :: arg.drop 2) :: rest, a.ops, a.evs⟩ < measA a)
    (h : ashortFinish o oarg arg rest a = .cont a') : measA a' < measA a := by
  unfold ashortFinish ainvoke at h
  split at h
  next hc =>
    cases h
    exact hcl (by simp only [Bool.and_eq_true, decide_eq_true_eq] at hc; exact hc.2)
  · cases h; exact hup

theorem astep_cont_measA {opts : List Opt} {a a' : AbsSt}
    (h : astep opts a = .cont a') : measA a' < measA a := by
  unfold astep at h
  split at h
  · exact AStepRes.noConfusion h
  next arg rest heq =>
  obtain ⟨rem, ops, evs⟩ := a
  simp only at heq
  subst heq
  unfold astepArg at h
  split at h
  · cases h; exact measA_lt_tail
  split at h
  · exact AStepRes.noConfusion h
  split at h
  case isFalse =>
    cases h; exact measA_lt_tail
  split at h
  · cases h; exact measA_lt_tail
  split at h
  · -- long option
    unfold astepLong at h
    have go : ∀ long_name oarg, astepLongGo opts long_name oarg rest ⟨arg :: rest, ops, evs⟩
        = .cont a' → measA a' < measA ⟨arg :: rest, ops, evs⟩ := by
      intro long_name oarg hgo
      unfold astepLongGo at hgo
      split at hgo
      · exact AStepRes.noConfusion hgo
      unfold astepLongFound at hgo
      split at hgo
      case isTrue =>
        split at hgo
        · exact AStepRes.noConfusion hgo
        · cases hgo; exact measA_lt_tail
      case isFalse =>
        split at hgo
        case isTrue =>
          split at hgo
          · exact AStepRes.noConfusion hgo
          next v rest2 =>
            cases hgo; exact measA_lt_tail2
        case isFalse =>
          cases hgo; exact measA_lt_tail
    split at h
    · exact go _ _ h
    · exact go _ _ h
  · -- short option
    unfold astepShort at h
    split at h
    · exact AStepRes.noConfusion h
    unfold astepShortFound at h
    split at h
    case isTrue =>
      split at h
      case isTrue hlen2 =>
        exact ashortFinish_cont_measA measA_lt_tail (fun hl => measA_lt_cluster hl) h
      case isFalse hlen2 =>
        split at h
        case isTrue =>
          split at h
          · exact AStepRes.noConfusion h
          next v rest2 =>
            -- the cluster branch of `ashortFinish` is unreachable (`arg.length ≤ 2`)
            exact ashortFinish_cont_measA measA_lt_tail2 (fun hl => absurd hl hlen2) h
        case isFalse =>
          exact ashortFinish_cont_measA measA_lt_tail (fun hl => measA_lt_cluster hl) h
    case isFalse =>
      exact ashortFinish_cont_measA measA_lt_tail (fun hl => measA_lt_cluster hl) h

theorem runAbsF_isSome {opts : List Opt} :
    ∀ {fuel : Nat} {a : AbsSt}, measA a < fuel → (runAbsF opts fuel a).isSome := by
  intro fuel
  induction fuel with
  | zero => intro a h; omega
  | succ n ih =>
    intro a h
    unfold runAbsF
    cases hstep : astep opts a with
    | stop a' => rfl
    | err m a' => rfl
    | cont a' =>
      have := astep_cont_measA hstep
      exact ih (by omega)

theorem runAbsF_congr {opts : List Opt} :
    ∀ {fuel fuel' : Nat} {a : AbsSt}, measA a < fuel → measA a < fuel' →
      runAbsF opts fuel a = runAbsF opts fuel' a := by
  intro fuel
  induction fuel with
  | zero => intro fuel' a h; omega
  | succ n ih =>
    intro fuel' a h h'
    cases fuel' with
    | zero => omega
    | succ n' =>
      unfold runAbsF
      cases hstep : astep opts a with
      | stop a' => rfl
      | err m a' => rfl
      | cont a' =>
        have := astep_cont_measA hstep
        exact ih (by omega) (by omega)

theorem runAbs_stop {opts : List Opt} {a a' : AbsSt} (h : astep opts a = .stop a') :
    runAbs opts a = (none, a') := by
  unfold runAbs runAbsF
  rw [h]
  rfl

theorem runAbs_err {opts : List Opt} {a a' : AbsSt} {m : Str} (h : astep opts a = .err m a') :
    runAbs opts a = (some m, a') := by
  unfold runAbs runAbsF
  rw [h]
  rfl

theorem runAbs_cont {opts : List Opt} {a a' : AbsSt} (h : astep opts a = .cont a') :
    runAbs opts a = runAbs opts a' := by
  have hm := astep_cont_measA h
  unfold runAbs
  conv_lhs => rw [runAbsF]
  rw [h]
  show (runAbsF opts (measA a) a').getD (none, a) = (runAbsF opts (measA a' + 1) a').getD (none, a')
  rw [runAbsF_congr (show measA a' < measA a by omega) (show measA a' < measA a' + 1 by omega)]
  obtain ⟨r, hr⟩ := Option.isSome_iff_exists.mp
    (@runAbsF_isSome opts (measA a' + 1) a' (show measA a' < measA a' + 1 by omega))
  rw [hr]
  rfl

/-! ## The cursor-based loop simulates the cursor-free loop -/

theorem drop_succ_of_drop_cons {l : List Str} {i : Nat} {x : Str} {xs : List Str}
    (h : l.drop i = x :: xs) : l.drop (i + 1) = xs := by
  rw [← List.tail_drop, h]
  rfl

theorem ashortFinish_congr {o : Opt} {oarg : Option Str} {arg : Str} {rest : List Str}
    {a b : AbsSt} (hops : a.ops = b.ops) (hevs : a.evs = b.evs) :
    ashortFinish o oarg arg rest a = ashortFinish o oarg arg rest b := by
  obtain ⟨ra, oa, ea⟩ := a
  obtain ⟨rb, ob, eb⟩ := b
  simp only at hops hevs
  subst hops; subst hevs
  unfold ashortFinish ainvoke
  rfl

theorem stepLongFound_abs (long_name : Str) (oarg : Option Str) (o : Opt)
    {s : St} {rest : List Str} (hInv : StInv s)
    (hrest : s.argv.drop (s.idx + 1) = rest) :
    absRel (stepLongFound long_name oarg o s)
      (astepLongFound long_name oarg o rest (absOf s)) := by
  unfold stepLongFound astepLongFound
  by_cases hsome : oarg.isSome = true
  · rw [if_pos hsome, if_pos hsome]
    by_cases htr : (!truthyS o.arg) = true
    · rw [if_pos htr, if_pos htr]
      exact ⟨rfl, rfl, rfl⟩
    · rw [if_neg htr, if_neg htr]
      refine ⟨hInv, ?_⟩
      simp [absOf, invoke, hrest]
  · rw [if_neg hsome, if_neg hsome]
    by_cases hman : (truthyS o.arg && !startsBracket o.arg) = true
    · rw [if_pos hman, if_pos hman]
      cases hrest2 : rest with
      | nil =>
        rw [if_pos (by
          rw [hInv]
          have := List.drop_eq_nil_iff.1 (hrest.trans hrest2)
          omega)]
        exact ⟨rfl, rfl, rfl⟩
      | cons v rest2 =>
        have hlt2 : s.idx + 1 < s.argv.length :=
          idx_lt_of_drop_cons (hrest.trans hrest2)
        rw [if_neg (by rw [hInv]; omega)]
        refine ⟨hInv, ?_⟩
        have hv : s.argv.getD (s.idx + 1) [] = v := by
          rw [getD_eq_headD_drop, hrest, hrest2]; rfl
        have hrest2' : s.argv.drop (s.idx + 2) = rest2 :=
          drop_succ_of_drop_cons (hrest.trans hrest2)
        simp [absOf, invoke, hrest2']
        exact congrArg (fun w => invokeEvents o (some w))
          ((List.getD_eq_getElem?_getD _ _ _).symm.trans hv)
    · rw [if_neg hman, if_neg hman]
      refine ⟨hInv, ?_⟩
      simp [absOf, invoke, hrest]

theorem stepLongGo_abs (opts : List Opt) (long_name : Str) (oarg : Option Str)
    {s : St} {rest : List Str} (hInv : StInv s)
    (hrest : s.argv.drop (s.idx + 1) = rest) :
    absRel (stepLongGo opts long_name oarg s)
      (astepLongGo opts long_name oarg rest (absOf s)) := by
  unfold stepLongGo astepLongGo
  generalize opts.find? (fun o => o.long_name == some long_name) = fo
  cases fo with
  | none => exact ⟨rfl, rfl, rfl⟩
  | some o => exact stepLongFound_abs long_name oarg o hInv hrest

theorem shortFinish_abs (o : Opt) (oarg : Option Str) (arg : Str)
    {s : St} {rest : List Str} (hInv : StInv s) (hlt : s.idx < s.argv.length)
    (hrest : s.argv.drop (s.idx + 1) = rest) :
    absRel (shortFinish o oarg arg s) (ashortFinish o oarg arg rest (absOf s)) := by
  unfold shortFinish ashortFinish ainvoke
  by_cases hc : (!truthyS oarg && decide (arg.length > 2)) = true
  · rw [if_pos hc, if_pos hc]
    refine ⟨?_, ?_⟩
    · show s.argc = (s.argv.set s.idx ('-' :: arg.drop 2)).length
      rw [List.length_set]
      exact hInv
    · show absOf _ = _
      simp only [absOf, invoke]
      rw [drop_set_self _ _ _ hlt, hrest]
  · rw [if_neg hc, if_neg hc]
    refine ⟨hInv, ?_⟩
    simp [absOf, invoke, hrest]

theorem stepShortFound_abs (arg : Str) (o : Opt) {s : St} {rest : List Str}
    (hInv : StInv s) (hlt : s.idx < s.argv.length)
    (hrest : s.argv.drop (s.idx + 1) = rest) :
    absRel (stepShortFound arg o s) (astepShortFound arg o rest (absOf s)) := by
  unfold stepShortFound astepShortFound
  by_cases h1 : truthyS o.arg = true
  · rw [if_pos h1, if_pos h1]
    by_cases h2 : arg.length > 2
    · rw [if_pos h2, if_pos h2]
      exact shortFinish_abs o _ arg hInv hlt hrest
    · rw [if_neg h2, if_neg h2]
      by_cases h3 : (!startsBracket o.arg) = true
      · rw [if_pos h3, if_pos h3]
        cases hrest2 : rest with
        | nil =>
          rw [if_pos (by
            rw [hInv]
            have := List.drop_eq_nil_iff.1 (hrest.trans hrest2)
            omega)]
          exact ⟨rfl, rfl, rfl⟩
        | cons v rest2 =>
          have hlt2 : s.idx + 1 < s.argv.length :=
            idx_lt_of_drop_cons (hrest.trans hrest2)
          rw [if_neg (by rw [hInv]; omega)]
          have hv : s.argv.getD (s.idx + 1) [] = v := by
            rw [getD_eq_headD_drop, hrest, hrest2]; rfl
          have hrest2' : s.argv.drop (s.idx + 1 + 1) = rest2 :=
            drop_succ_of_drop_cons (hrest.trans hrest2)
          rw [hv]
          have hmain := @shortFinish_abs o (some v) arg
            { s with idx := s.idx + 1 } rest2 hInv (by simpa using hlt2) hrest2'
          rwa [@ashortFinish_congr o (some v) arg rest2
            (absOf { s with idx := s.idx + 1 }) (absOf s) rfl rfl] at hmain
      · rw [if_neg h3, if_neg h3]
        exact shortFinish_abs o none arg hInv hlt hrest
  · rw [if_neg h1, if_neg h1]
    exact shortFinish_abs o none arg hInv hlt hrest

theorem stepShort_abs (opts : List Opt) (arg : Str) {s : St} {rest : List Str}
    (hInv : StInv s) (hrem : s.argv.drop s.idx = arg :: rest) :
    absRel (stepShort opts arg s) (astepShort opts arg rest (absOf s)) := by
  have hlt := idx_lt_of_drop_cons hrem
  have hrest : s.argv.drop (s.idx + 1) = rest := drop_succ_of_drop_cons hrem
  unfold stepShort astepShort
  generalize opts.find? (fun o => o.short_name == some [arg.getD 1 ' ']) = fo
  cases fo with
  | none => exact ⟨rfl, rfl, rfl⟩
  | some o => exact stepShortFound_abs arg o hInv hlt hrest

theorem stepLong_abs (opts : List Opt) (arg : Str) {s : St} {rest : List Str}
    (hInv : StInv s) (hrem : s.argv.drop s.idx = arg :: rest) :
    absRel (stepLong opts arg s) (astepLong opts arg rest (absOf s)) := by
  have hrest : s.argv.drop (s.idx + 1) = rest := drop_succ_of_drop_cons hrem
  unfold stepLong astepLong
  generalize (arg.drop 2).findIdx? (fun ch => ch = '=') = fi
  cases fi with
  | some p => exact stepLongGo_abs opts _ _ hInv hrest
  | none => exact stepLongGo_abs opts _ _ hInv hrest

theorem stepArg_abs (opts : List Opt) (arg : Str) {s : St} {rest : List Str}
    (hInv : StInv s) (hrem : s.argv.drop s.idx = arg :: rest) :
    absRel (stepArg opts arg s) (astepArg opts arg rest (absOf s)) := by
  have hlt := idx_lt_of_drop_cons hrem
  have hrest : s.argv.drop (s.idx + 1) = rest := drop_succ_of_drop_cons hrem
  unfold stepArg astepArg
  by_cases h0 : arg.length = 0
  · rw [if_pos h0, if_pos h0]
    exact ⟨hInv, by simp [absOf, hrest]⟩
  rw [if_neg h0, if_neg h0]
  by_cases hdd : arg = ['-', '-']
  · rw [if_pos hdd, if_pos hdd]
    refine ⟨?_, rfl⟩
    show s.operands ++ (s.argv.drop (s.idx + 1)).take (s.argc - (s.idx + 1)) = s.operands ++ rest
    rw [hrest]
    have : s.argc - (s.idx + 1) = rest.length := by
      rw [hInv, ← hrest, List.length_drop]
    rw [this, List.take_length]
  rw [if_neg hdd, if_neg hdd]
  by_cases hdash : arg.getD 0 ' ' = '-'
  · rw [if_pos hdash, if_pos hdash]
    by_cases h1 : arg.length = 1
    · rw [if_pos h1, if_pos h1]
      exact ⟨hInv, by simp [absOf, hrest]⟩
    rw [if_neg h1, if_neg h1]
    by_cases hdash2 : arg.getD 1 ' ' = '-'
    · rw [if_pos hdash2, if_pos hdash2]
      exact stepLong_abs opts arg hInv hrem
    · rw [if_neg hdash2, if_neg hdash2]
      exact stepShort_abs opts arg hInv hrem
  · rw [if_neg hdash, if_neg hdash]
    exact ⟨hInv, by simp [absOf, hrest]⟩

/-- One `_parse` call, viewed through `absOf`, is exactly one `astep`. -/
theorem step_abs (opts : List Opt) {s : St} (hInv : StInv s) :
    absRel (step opts s) (astep opts (absOf s)) := by
  cases hrem : s.argv.drop s.idx with
  | nil =>
    have hge : s.idx ≥ s.argc := by
      rw [hInv]
      exact List.drop_eq_nil_iff.1 hrem
    unfold step astep
    rw [if_pos hge]
    have : (absOf s).rem = [] := by simp [absOf, hrem]
    rw [this]
    exact ⟨rfl, rfl⟩
  | cons arg rest =>
    have hlt : s.idx < s.argv.length := idx_lt_of_drop_cons hrem
    have harg : s.argv.getD s.idx [] = arg := by
      rw [getD_eq_headD_drop, hrem]; rfl
    unfold step astep
    rw [if_neg (by rw [hInv]; omega), harg]
    have : (absOf s).rem = arg :: rest := by simp [absOf, hrem]
    rw [this]
    exact stepArg_abs opts arg hInv hrem

/-! ## The two loops produce the same observable results -/

theorem run_abs (opts : List Opt) :
    ∀ (n : Nat) (s : St), meas s ≤ n → StInv s →
      (runIt opts s).1 = (runAbs opts (absOf s)).1 ∧
      (runIt opts s).2.operands = (runAbs opts (absOf s)).2.ops ∧
      (runIt opts s).2.events = (runAbs opts (absOf s)).2.evs := by
  intro n
  induction n with
  | zero =>
    intro s hn hInv
    have hrel := step_abs opts hInv
    cases hstep : step opts s with
    | stop s' =>
      rw [hstep] at hrel
      cases hastep : astep opts (absOf s) with
      | stop a' =>
        rw [hastep] at hrel
        rw [runIt_stop hstep, runAbs_stop hastep]
        exact ⟨rfl, hrel.1, hrel.2⟩
      | cont a' => rw [hastep] at hrel; exact hrel.elim
      | err m a' => rw [hastep] at hrel; exact hrel.elim
    | err m s' =>
      rw [hstep] at hrel
      cases hastep : astep opts (absOf s) with
      | stop a' => rw [hastep] at hrel; exact hrel.elim
      | cont a' => rw [hastep] at hrel; exact hrel.elim
      | err m' a' =>
        rw [hastep] at hrel
        rw [runIt_err hstep, runAbs_err hastep]
        exact ⟨by rw [hrel.1], hrel.2.1, hrel.2.2⟩
    | cont s' =>
      have := step_cont_meas hstep
      omega
  | succ n ih =>
    intro s hn hInv
    have hrel := step_abs opts hInv
    cases hstep : step opts s with
    | stop s' =>
      rw [hstep] at hrel
      cases hastep : astep opts (absOf s) with
      | stop a' =>
        rw [hastep] at hrel
        rw [runIt_stop hstep, runAbs_stop hastep]
        exact ⟨rfl, hrel.1, hrel.2⟩
      | cont a' => rw [hastep] at hrel; exact hrel.elim
      | err m a' => rw [hastep] at hrel; exact hrel.elim
    | err m s' =>
      rw [hstep] at hrel
      cases hastep : astep opts (absOf s) with
      | stop a' => rw [hastep] at hrel; exact hrel.elim
      | cont a' => rw [hastep] at hrel; exact hrel.elim
      | err m' a' =>
        rw [hastep] at hrel
        rw [runIt_err hstep, runAbs_err hastep]
        exact ⟨by rw [hrel.1], hrel.2.1, hrel.2.2⟩
    | cont s' =>
      rw [hstep] at hrel
      cases hastep : astep opts (absOf s) with
      | stop a' => rw [hastep] at hrel; exact hrel.elim
      | err m a' => rw [hastep] at hrel; exact hrel.elim
      | cont a' =>
        rw [hastep] at hrel
        rw [runIt_cont hstep, runAbs_cont hastep]
        have hmeas := step_cont_meas hstep
        have := ih s' (by omega) hrel.1
        rwa [hrel.2] at this

/-- `Command.parse` and its cursor-free computation agree. -/
theorem parse_eq_parseA (opts : List Opt) (argv : List Str) :
    parse opts argv = parseA opts argv := by
  have h := run_abs opts (meas (initSt argv)) (initSt argv) (Nat.le_refl _)
    (by simp [StInv, initSt])
  have habs : absOf (initSt argv) = ⟨argv.drop 1, [], []⟩ := rfl
  rw [habs] at h
  obtain ⟨h1, h2, h3⟩ := h
  unfold parse parseA
  cases hr : runIt opts (initSt argv) with
  | mk m s =>
    cases hra : runAbs opts ⟨argv.drop 1, [], []⟩ with
    | mk m2 a =>
      rw [hr, hra] at h1 h2 h3
      have hm : m = m2 := h1
      have hops : s.operands = a.ops := h2
      have hevs : s.events = a.evs := h3
      subst hm
      cases m with
      | none => simp [hops, hevs]
      | some mm => simp [hops, hevs]

/-! ## Computing `astep` on the token shapes of the claims -/

theorem truthyS_of_bracket {a : Option Str} (h : startsBracket a = true) :
    truthyS a = true := by
  unfold startsBracket at h
  split at h
  · simp [truthyS]
  · exact Bool.noConfusion h

theorem findIdx_none (p : Char → Bool) :
    ∀ (l : List Char) (i : Nat), (∀ c ∈ l, p c = false) → List.findIdx? p l i = none
  | [], _, _ => rfl
  | a :: l, i, h => by
    have h1 : p a = false := h a (List.mem_cons_self a l)
    have hstep : List.findIdx? p (a :: l) i =
        if p a then some i else List.findIdx? p l (i + 1) := rfl
    rw [hstep, if_neg (by simp [h1])]
    exact findIdx_none p l (i + 1) (fun c hc => h c (List.mem_cons_of_mem a hc))

theorem findIdx_cons_eq (p : Char → Bool) (a : Char) (l : List Char) (i : Nat) :
    List.findIdx? p (a :: l) i = if p a then some i else List.findIdx? p l (i + 1) := rfl

theorem findIdx_append_eq {v : Str} :
    ∀ (name : Str) (i : Nat), ¬ '=' ∈ name →
      List.findIdx? (fun ch => ch = '=') (name ++ '=' :: v) i = some (name.length + i)
  | [], i, _ => by
    simp only [List.nil_append]
    rw [findIdx_cons_eq, if_pos (by simp)]
    simp
  | a :: l, i, h => by
    have h1 : ¬ (a = '=') := fun hc => h (by rw [hc]; exact List.mem_cons_self _ _)
    simp only [List.cons_append]
    rw [findIdx_cons_eq, if_neg (by simp [h1]),
      findIdx_append_eq l (i + 1) (fun hc => h (List.mem_cons_of_mem a hc))]
    have : l.length + (i + 1) = (a :: l).length + i := by
      simp only [List.length_cons]; omega
    rw [this]

/-- An empty token is an operand. -/
theorem astepArg_empty (opts : List Opt) (rest : List Str) (a : AbsSt) :
    astepArg opts [] rest a = .cont ⟨rest, a.ops ++ [[]], a.evs⟩ := rfl

/-- A token that does not begin with `-` is an operand. -/
theorem astepArg_operand (opts : List Opt) (tok : Str) (rest : List Str) (a : AbsSt)
    (h0 : tok ≠ []) (hd : tok.getD 0 ' ' ≠ '-') :
    astepArg opts tok rest a = .cont ⟨rest, a.ops ++ [tok], a.evs⟩ := by
  unfold astepArg
  rw [if_neg (by simpa using fun hc => h0 (List.length_eq_zero.1 hc)),
    if_neg (by intro hc; exact hd (by rw [hc]; rfl)), if_neg hd]

/-- The `--` end-of-options marker. -/
theorem astep_ddash (opts : List Opt) (rest : List Str) (ops : List Str) (evs : List Event) :
    astep opts ⟨['-', '-'] :: rest, ops, evs⟩ = .stop ⟨[], ops ++ rest, evs⟩ := rfl

/-- A long-option token dispatches to the long-option branch. -/
theorem astepArg_long (opts : List Opt) (name : Str) (rest : List Str) (a : AbsSt)
    (hname : name ≠ []) :
    astepArg opts ('-' :: '-' :: name) rest a = astepLong opts ('-' :: '-' :: name) rest a := by
  unfold astepArg
  rw [if_neg (by simp), if_neg (by simp [hname]),
    if_pos (show ('-' :: '-' :: name : Str).getD 0 ' ' = '-' from rfl),
    if_neg (show ¬ ('-' :: '-' :: name : Str).length = 1 by simp),
    if_pos (show ('-' :: '-' :: name : Str).getD 1 ' ' = '-' from rfl)]

/-- A long-option token without `=` yields no attached argument. -/
theorem astepLong_noeq (opts : List Opt) (name : Str) (rest : List Str) (a : AbsSt)
    (heq : ¬ '=' ∈ name) :
    astepLong opts ('-' :: '-' :: name) rest a = astepLongGo opts name none rest a := by
  unfold astepLong
  simp only [List.drop_succ_cons, List.drop_zero]
  rw [findIdx_none _ name 0 (fun c hc => by
    simp only [decide_eq_false_iff_not]
    intro hcc
    exact heq (hcc ▸ hc))]

/-- A long-option token with `=` splits into the name and the attached value. -/
theorem astepLong_eq (opts : List Opt) (name V : Str) (rest : List Str) (a : AbsSt)
    (heq : ¬ '=' ∈ name) :
    astepLong opts ('-' :: '-' :: (name ++ '=' :: V)) rest a =
      astepLongGo opts name (some V) rest a := by
  unfold astepLong
  simp only [List.drop_succ_cons, List.drop_zero]
  have hidx : List.findIdx? (fun ch => ch = '=') (name ++ '=' :: V) 0 = some name.length := by
    rw [findIdx_append_eq name 0 heq]
    simp
  rw [hidx]
  show astepLongGo opts ((name ++ '=' :: V).take name.length)
    (some ((name ++ '=' :: V).drop (name.length + 1))) rest a = _
  have hdrop : (name ++ '=' :: V).drop (name.length + 1) = V := by
    have hassoc : name ++ '=' :: V = (name ++ ['=']) ++ V := by simp
    rw [hassoc, List.drop_left' (by simp)]
  rw [List.take_left' rfl, hdrop]

/-- Registry lookup result for the long-option branch. -/
theorem astepLongGo_found (opts : List Opt) (long_name : Str) (oarg : Option Str)
    (rest : List Str) (a : AbsSt) (o : Opt)
    (hf : opts.find? (fun o' => o'.long_name == some long_name) = some o) :
    astepLongGo opts long_name oarg rest a = astepLongFound long_name oarg o rest a := by
  unfold astepLongGo
  rw [hf]

/-- Unknown long option. -/
theorem astepLongGo_unknown (opts : List Opt) (long_name : Str) (oarg : Option Str)
    (rest : List Str) (a : AbsSt)
    (hf : opts.find? (fun o' => o'.long_name == some long_name) = none) :
    astepLongGo opts long_name oarg rest a = .err (msgUnknownLong long_name) a := by
  unfold astepLongGo
  rw [hf]

/-- Optional-argument long option with no attached value: the argument stays
absent; the next element is not consumed. -/
theorem astepLongFound_optional (long_name : Str) (o : Opt) (rest : List Str) (a : AbsSt)
    (hbr : startsBracket o.arg = true) :
    astepLongFound long_name none o rest a =
      .cont { a with rem := rest, evs := a.evs ++ invokeEvents o none } := by
  unfold astepLongFound
  rw [if_neg (by simp), if_neg (by simp [hbr])]

/-- Long option with an attached value (which may be empty). -/
theorem astepLongFound_attached (long_name : Str) (V : Str) (o : Opt) (rest : List Str)
    (a : AbsSt) (htr : truthyS o.arg = true) :
    astepLongFound long_name (some V) o rest a =
      .cont { a with rem := rest, evs := a.evs ++ invokeEvents o (some V) } := by
  unfold astepLongFound
  rw [if_pos (by simp), if_neg (by simp [htr])]

/-- Mandatory-argument long option with no attached value consumes the next
element. -/
theorem astepLongFound_mandatory (long_name : Str) (o : Opt) (v : Str) (rest2 : List Str)
    (a : AbsSt) (htr : truthyS o.arg = true) (hbr : startsBracket o.arg = false) :
    astepLongFound long_name none o (v :: rest2) a =
      .cont { a with rem := rest2, evs := a.evs ++ invokeEvents o (some v) } := by
  unfold astepLongFound
  rw [if_neg (by simp), if_pos (by simp [htr, hbr])]

/-- A short-option token dispatches to the short-option branch. -/
theorem astepArg_short (opts : List Opt) (c : Char) (tail : Str) (rest : List Str)
    (a : AbsSt) (hc : c ≠ '-') :
    astepArg opts ('-' :: c :: tail) rest a = astepShort opts ('-' :: c :: tail) rest a := by
  unfold astepArg
  rw [if_neg (by simp), if_neg (by simp [hc]),
    if_pos (show ('-' :: c :: tail : Str).getD 0 ' ' = '-' from rfl),
    if_neg (show ¬ ('-' :: c :: tail : Str).length = 1 by simp),
    if_neg (show ¬ ('-' :: c :: tail : Str).getD 1 ' ' = '-' by simpa using hc)]

/-- Registry lookup result for the short-option branch. -/
theorem astepShort_found (opts : List Opt) (c : Char) (tail : Str) (rest : List Str)
    (a : AbsSt) (o : Opt)
    (hf : opts.find? (fun o' => o'.short_name == some [c]) = some o) :
    astepShort opts ('-' :: c :: tail) rest a = astepShortFound ('-' :: c :: tail) o rest a := by
  unfold astepShort
  show (match opts.find? (fun o' => o'.short_name == some [c]) with
    | none => AStepRes.err (msgUnknownShort c) a
    | some o => astepShortFound ('-' :: c :: tail) o rest a) = _
  rw [hf]

/-- Unknown short option. -/
theorem astepShort_unknown (opts : List Opt) (c : Char) (tail : Str) (rest : List Str)
    (a : AbsSt)
    (hf : opts.find? (fun o' => o'.short_name == some [c]) = none) :
    astepShort opts ('-' :: c :: tail) rest a = .err (msgUnknownShort c) a := by
  unfold astepShort
  show (match opts.find? (fun o' => o'.short_name == some [c]) with
    | none => AStepRes.err (msgUnknownShort c) a
    | some o => astepShortFound ('-' :: c :: tail) o rest a) = _
  rw [hf]

/-- `shortFinish` when the cluster condition fails: advance past the token. -/
theorem ashortFinish_advance {o : Opt} {oarg : Option Str} {arg : Str} {rest : List Str}
    {a : AbsSt} (h : ¬ ((!truthyS oarg && decide (arg.length > 2)) = true)) :
    ashortFinish o oarg arg rest a = .cont ⟨rest, a.ops, a.evs ++ invokeEvents o oarg⟩ := by
  unfold ashortFinish ainvoke
  rw [if_neg h]

/-- `shortFinish` when the cluster condition holds: rewrite the token. -/
theorem ashortFinish_rewrite {o : Opt} {oarg : Option Str} {arg : Str} {rest : List Str}
    {a : AbsSt} (h : (!truthyS oarg && decide (arg.length > 2)) = true) :
    ashortFinish o oarg arg rest a =
      .cont ⟨('-' :: arg.drop 2) :: rest, a.ops, a.evs ++ invokeEvents o oarg⟩ := by
  unfold ashortFinish ainvoke
  rw [if_pos h]

/-- Short option taking no argument, with trailing characters: the token is
rewritten to `-` plus the remaining characters (cluster scan). -/
theorem astepShortFound_cluster (c d : Char) (tail2 : Str) (o : Opt) (rest : List Str)
    (a : AbsSt) (hno : truthyS o.arg = false) :
    astepShortFound ('-' :: c :: d :: tail2) o rest a =
      .cont ⟨('-' :: d :: tail2) :: rest, a.ops, a.evs ++ invokeEvents o none⟩ := by
  unfold astepShortFound
  rw [if_neg (by simp [hno]), ashortFinish_rewrite (by simp [truthyS])]
  rfl

/-- Short option taking no argument, token exhausted: advance. -/
theorem astepShortFound_noArg (c : Char) (o : Opt) (rest : List Str) (a : AbsSt)
    (hno : truthyS o.arg = false) :
    astepShortFound ['-', c] o rest a =
      .cont ⟨rest, a.ops, a.evs ++ invokeEvents o none⟩ := by
  unfold astepShortFound
  rw [if_neg (by simp [hno]), ashortFinish_advance (by simp)]

/-- Short option with an argument spec and attached characters: they are the
argument, and no cluster continuation happens. -/
theorem astepShortFound_attached (c d : Char) (tail2 : Str) (o : Opt) (rest : List Str)
    (a : AbsSt) (htr : truthyS o.arg = true) :
    astepShortFound ('-' :: c :: d :: tail2) o rest a =
      .cont ⟨rest, a.ops, a.evs ++ invokeEvents o (some (d :: tail2))⟩ := by
  unfold astepShortFound
  rw [if_pos htr, if_pos (by simp),
    ashortFinish_advance (by simp [truthyS])]
  rfl

/-- Mandatory-argument short option with nothing attached consumes the next
element (which may be any string, empty included). -/
theorem astepShortFound_mandatory (c : Char) (o : Opt) (v : Str) (rest2 : List Str)
    (a : AbsSt) (htr : truthyS o.arg = true) (hbr : startsBracket o.arg = false) :
    astepShortFound ['-', c] o (v :: rest2) a =
      .cont ⟨rest2, a.ops, a.evs ++ invokeEvents o (some v)⟩ := by
  unfold astepShortFound
  rw [if_pos htr, if_neg (by simp), if_pos (by simp [hbr])]
  show ashortFinish o (some v) ['-', c] rest2 a = _
  rw [ashortFinish_advance (by simp)]

/-- Optional-argument short option with nothing attached: the argument stays
absent; the next element is not consumed. -/
theorem astepShortFound_optional (c : Char) (o : Opt) (rest : List Str) (a : AbsSt)
    (hbr : startsBracket o.arg = true) :
    astepShortFound ['-', c] o rest a =
      .cont ⟨rest, a.ops, a.evs ++ invokeEvents o none⟩ := by
  unfold astepShortFound
  rw [if_pos (truthyS_of_bracket hbr), if_neg (by simp), if_neg (by simp [hbr]),
    ashortFinish_advance (by simp)]

/-- The loop stops on an exhausted argument list. -/
theorem astep_nil (opts : List Opt) (ops : List Str) (evs : List Event) :
    astep opts ⟨[], ops, evs⟩ = .stop ⟨[], ops, evs⟩ := rfl

/-- `astep` on a non-empty suffix is `astepArg` on its head. -/
theorem astep_cons (opts : List Opt) (tok : Str) (rest : List Str) (ops : List Str)
    (evs : List Event) :
    astep opts ⟨tok :: rest, ops, evs⟩ = astepArg opts tok rest ⟨tok :: rest, ops, evs⟩ := rfl

/-! ## Events only accumulate -/

theorem ashortFinish_evs {o : Opt} {oarg : Option Str} {arg : Str} {rest : List Str}
    {a : AbsSt} {r : AStepRes} (h : ashortFinish o oarg arg rest a = r) :
    ∃ δ, (aresSt r).evs = a.evs ++ δ := by
  unfold ashortFinish ainvoke at h
  split at h <;> (subst h; exact ⟨_, rfl⟩)

theorem astepLongFound_evs {long_name : Str} {oarg : Option Str} {o : Opt}
    {rest : List Str} {a : AbsSt} {r : AStepRes}
    (h : astepLongFound long_name oarg o rest a = r) :
    ∃ δ, (aresSt r).evs = a.evs ++ δ := by
  unfold astepLongFound at h
  split at h
  case isTrue =>
    split at h
    · subst h; exact ⟨[], by simp [aresSt]⟩
    · subst h; exact ⟨_, rfl⟩
  case isFalse =>
    split at h
    case isTrue =>
      split at h
      · subst h; exact ⟨[], by simp [aresSt]⟩
      · subst h; exact ⟨_, rfl⟩
    case isFalse =>
      subst h; exact ⟨_, rfl⟩

theorem astepLongGo_evs {opts : List Opt} {long_name : Str} {oarg : Option Str}
    {rest : List Str} {a : AbsSt} {r : AStepRes}
    (h : astepLongGo opts long_name oarg rest a = r) :
    ∃ δ, (aresSt r).evs = a.evs ++ δ := by
  unfold astepLongGo at h
  split at h
  · subst h; exact ⟨[], by simp [aresSt]⟩
  · exact astepLongFound_evs h

theorem astepShortFound_evs {arg : Str} {o : Opt} {rest : List Str} {a : AbsSt}
    {r : AStepRes} (h : astepShortFound arg o rest a = r) :
    ∃ δ, (aresSt r).evs = a.evs ++ δ := by
  unfold astepShortFound at h
  split at h
  case isTrue =>
    split at h
    case isTrue => exact ashortFinish_evs h
    case isFalse =>
      split at h
      case isTrue =>
        split at h
        · subst h; exact ⟨[], by simp [aresSt]⟩
        · exact ashortFinish_evs h
      case isFalse => exact ashortFinish_evs h
  case isFalse => exact ashortFinish_evs h

theorem astep_evs {opts : List Opt} {a : AbsSt} {r : AStepRes} (h : astep opts a = r) :
    ∃ δ, (aresSt r).evs = a.evs ++ δ := by
  unfold astep at h
  split at h
  · subst h; exact ⟨[], by simp [aresSt]⟩
  next arg rest heq =>
    unfold astepArg at h
    split at h
    · subst h; exact ⟨[], by simp [aresSt]⟩
    split at h
    · subst h; exact ⟨[], by simp [aresSt]⟩
    split at h
    case isFalse => subst h; exact ⟨[], by simp [aresSt]⟩
    split at h
    · subst h; exact ⟨[], by simp [aresSt]⟩
    split at h
    · -- long option
      unfold astepLong at h
      split at h
      · exact astepLongGo_evs h
      · exact astepLongGo_evs h
    · -- short option
      unfold astepShort at h
      split at h
      · subst h; exact ⟨[], by simp [aresSt]⟩
      · exact astepShortFound_evs h

theorem runAbs_evs (opts : List Opt) :
    ∀ (n : Nat) (a : AbsSt), measA a ≤ n → ∃ δ, (runAbs opts a).2.evs = a.evs ++ δ := by
  intro n
  induction n with
  | zero =>
    intro a hn
    cases hstep : astep opts a with
    | stop a' =>
      rw [runAbs_stop hstep]
      exact astep_evs hstep
    | err m a' =>
      rw [runAbs_err hstep]
      exact astep_evs hstep
    | cont a' =>
      have := astep_cont_measA hstep
      omega
  | succ n ih =>
    intro a hn
    cases hstep : astep opts a with
    | stop a' =>
      rw [runAbs_stop hstep]
      exact astep_evs hstep
    | err m a' =>
      rw [runAbs_err hstep]
      exact astep_evs hstep
    | cont a' =>
      obtain ⟨δ, hδ⟩ := astep_evs hstep
      have hδ' : a'.evs = a.evs ++ δ := hδ
      have hm := astep_cont_measA hstep
      obtain ⟨δ2, hδ2⟩ := ih a' (by omega)
      rw [runAbs_cont hstep, hδ2, hδ']
      exact ⟨δ ++ δ2, by rw [List.append_assoc]⟩

/-! ## Bridging `parse` results to the cursor-free loop -/

theorem parseA_result {opts : List Opt} {argv : List Str} {m : Option Str} {a : AbsSt}
    (h : runAbs opts ⟨argv.drop 1, [], []⟩ = (m, a)) :
    parse opts argv = ⟨m.isSome, a.ops, a.evs, m⟩ := by
  rw [parse_eq_parseA]
  unfold parseA
  rw [h]
  cases m <;> rfl

theorem parse_evs (opts : List Opt) (argv : List Str) :
    (parse opts argv).events = (runAbs opts ⟨argv.drop 1, [], []⟩).2.evs := by
  rw [parse_eq_parseA]
  unfold parseA
  cases h : runAbs opts ⟨argv.drop 1, [], []⟩ with
  | mk m a => cases m <;> rfl

theorem invokeEvents_call1 {o : Opt} (hcb : o.hasCallback = true)
    (htr : truthyS o.arg = true) (x : Option Str) :
    invokeEvents o x = [.call1 o.id x] := by
  unfold invokeEvents
  rw [if_pos hcb, if_pos htr]

/-! ## Claims about the parsing engine -/

/-- C1: for every registered option with an optional argument, `--opt` (no `=`)
invokes the handler with an absent argument (`None`), `--opt=` invokes it with
the empty string (not absent), and in no run is an optional argument taken from
the following separate argv element — for both the long form and the short
form `-o` (the handler still receives the absent argument when a further
element `X` follows). -/
theorem claim_C1 (opts : List Opt) (name : Str) (c : Char) (o : Opt) (X prog : Str)
    (hname : name ≠ []) (heq : ¬ '=' ∈ name) (hc : c ≠ '-')
    (hfl : opts.find? (fun o' => o'.long_name == some name) = some o)
    (hfs : opts.find? (fun o' => o'.short_name == some [c]) = some o)
    (hbr : startsBracket o.arg = true)
    (hcb : o.hasCallback = true) :
    parse opts [prog, '-' :: '-' :: name] = ⟨false, [], [.call1 o.id none], none⟩ ∧
    parse opts [prog, '-' :: '-' :: (name ++ ['='])] =
      ⟨false, [], [.call1 o.id (some [])], none⟩ ∧
    parse opts [prog, ['-', c]] = ⟨false, [], [.call1 o.id none], none⟩ ∧
    (parse opts [prog, '-' :: '-' :: name, X]).events.head? = some (.call1 o.id none) ∧
    (parse opts [prog, ['-', c], X]).events.head? = some (.call1 o.id none) := by
  have htr := truthyS_of_bracket hbr
  have hinv := invokeEvents_call1 hcb htr
  refine ⟨?_, ?_, ?_, ?_, ?_⟩
  · have h1 : astep opts ⟨['-' :: '-' :: name], [], []⟩ =
        .cont ⟨[], [], [] ++ invokeEvents o none⟩ := by
      rw [astep_cons, astepArg_long _ _ _ _ hname, astepLong_noeq _ _ _ _ heq,
        astepLongGo_found _ _ _ _ _ _ hfl, astepLongFound_optional _ _ _ _ hbr]
    have hrun := (runAbs_cont h1).trans (runAbs_stop (astep_nil opts [] _))
    rw [parseA_result hrun]
    simp [hinv]
  · have h1 : astep opts ⟨['-' :: '-' :: (name ++ '=' :: [])], [], []⟩ =
        .cont ⟨[], [], [] ++ invokeEvents o (some [])⟩ := by
      rw [astep_cons, astepArg_long _ _ _ _ (by simp), astepLong_eq _ _ _ _ _ heq,
        astepLongGo_found _ _ _ _ _ _ hfl, astepLongFound_attached _ _ _ _ _ htr]
    have hrun := (runAbs_cont h1).trans (runAbs_stop (astep_nil opts [] _))
    rw [parseA_result hrun]
    simp [hinv]
  · have h1 : astep opts ⟨[['-', c]], [], []⟩ =
        .cont ⟨[], [], [] ++ invokeEvents o none⟩ := by
      rw [astep_cons, astepArg_short _ _ _ _ _ hc, astepShort_found _ _ _ _ _ _ hfs,
        astepShortFound_optional _ _ _ _ hbr]
    have hrun := (runAbs_cont h1).trans (runAbs_stop (astep_nil opts [] _))
    rw [parseA_result hrun]
    simp [hinv]
  · have h1 : astep opts ⟨['-' :: '-' :: name, X], [], []⟩ =
        .cont ⟨[X], [], [] ++ invokeEvents o none⟩ := by
      rw [astep_cons, astepArg_long _ _ _ _ hname, astepLong_noeq _ _ _ _ heq,
        astepLongGo_found _ _ _ _ _ _ hfl, astepLongFound_optional _ _ _ _ hbr]
    rw [parse_evs]
    rw [show ([prog, '-' :: '-' :: name, X].drop 1) = ['-' :: '-' :: name, X] from rfl]
    rw [runAbs_cont h1]
    obtain ⟨δ, hδ⟩ := runAbs_evs opts (measA ⟨[X], [], [] ++ invokeEvents o none⟩) _
      (Nat.le_refl _)
    rw [hδ]
    simp [hinv]
  · have h1 : astep opts ⟨[['-', c], X], [], []⟩ =
        .cont ⟨[X], [], [] ++ invokeEvents o none⟩ := by
      rw [astep_cons, astepArg_short _ _ _ _ _ hc, astepShort_found _ _ _ _ _ _ hfs,
        astepShortFound_optional _ _ _ _ hbr]
    rw [parse_evs]
    rw [show ([prog, ['-', c], X].drop 1) = [['-', c], X] from rfl]
    rw [runAbs_cont h1]
    obtain ⟨δ, hδ⟩ := runAbs_evs opts (measA ⟨[X], [], [] ++ invokeEvents o none⟩) _
      (Nat.le_refl _)
    rw [hδ]
    simp [hinv]

/-- Witness for C1 at the example registry (`-l, --log[=LOG_FILE]`). -/
theorem claim_C1_witness :
    (exReg.find? (fun o' => o'.long_name == some "log".data) = some exOptL ∧
      startsBracket exOptL.arg = true) ∧
    (parse exReg ["prog".data, '-' :: '-' :: "log".data] =
      ⟨false, [], [.call1 exOptL.id none], none⟩ ∧
    parse exReg ["prog".data, '-' :: '-' :: ("log".data ++ ['='])] =
      ⟨false, [], [.call1 exOptL.id (some [])], none⟩ ∧
    parse exReg ["prog".data, ['-', 'l']] = ⟨false, [], [.call1 exOptL.id none], none⟩ ∧
    (parse exReg ["prog".data, '-' :: '-' :: "log".data, "file".data]).events.head? =
      some (.call1 exOptL.id none) ∧
    (parse exReg ["prog".data, ['-', 'l'], "file".data]).events.head? =
      some (.call1 exOptL.id none)) :=
  ⟨⟨by decide, by decide⟩,
    claim_C1 exReg "log".data 'l' exOptL "file".data "prog".data (by decide) (by decide)
      (by decide) (by decide) (by decide) (by decide) (by decide)⟩

/-- C2: in a registry where short options `a` and `b` take no argument and `c`
takes a mandatory one, the cluster `-abc` followed by `X` parses exactly like
the separate tokens `-a -b -c X` — same handler invocations in the same order,
same operands, same outcome and message — for any following elements `B`. -/
theorem claim_C2 (opts : List Opt) (ca cb cc : Char) (oa ob oc : Opt) (X prog : Str)
    (B : List Str)
    (hda : ca ≠ '-') (hdb : cb ≠ '-') (hdc : cc ≠ '-')
    (hfa : opts.find? (fun o' => o'.short_name == some [ca]) = some oa)
    (hna : truthyS oa.arg = false)
    (hfb : opts.find? (fun o' => o'.short_name == some [cb]) = some ob)
    (hnb : truthyS ob.arg = false)
    (hfc : opts.find? (fun o' => o'.short_name == some [cc]) = some oc)
    (htc : truthyS oc.arg = true) (hbc : startsBracket oc.arg = false) :
    parse opts (prog :: ['-', ca, cb, cc] :: X :: B) =
      parse opts (prog :: ['-', ca] :: ['-', cb] :: ['-', cc] :: X :: B) := by
  rw [parse_eq_parseA, parse_eq_parseA]
  unfold parseA
  have hside1 : runAbs opts ⟨['-', ca, cb, cc] :: X :: B, [], []⟩ =
      runAbs opts ⟨B, [],
        (([] ++ invokeEvents oa none) ++ invokeEvents ob none) ++ invokeEvents oc (some X)⟩ := by
    have s1 : astep opts ⟨['-', ca, cb, cc] :: X :: B, [], []⟩ =
        .cont ⟨['-', cb, cc] :: X :: B, [], [] ++ invokeEvents oa none⟩ := by
      rw [astep_cons, astepArg_short _ _ _ _ _ hda, astepShort_found _ _ _ _ _ _ hfa,
        astepShortFound_cluster _ _ _ _ _ _ hna]
    have s2 : astep opts ⟨['-', cb, cc] :: X :: B, [], [] ++ invokeEvents oa none⟩ =
        .cont ⟨['-', cc] :: X :: B, [],
          ([] ++ invokeEvents oa none) ++ invokeEvents ob none⟩ := by
      rw [astep_cons, astepArg_short _ _ _ _ _ hdb, astepShort_found _ _ _ _ _ _ hfb,
        astepShortFound_cluster _ _ _ _ _ _ hnb]
    have s3 : astep opts ⟨['-', cc] :: X :: B, [],
        ([] ++ invokeEvents oa none) ++ invokeEvents ob none⟩ =
        .cont ⟨B, [],
          (([] ++ invokeEvents oa none) ++ invokeEvents ob none) ++ invokeEvents oc (some X)⟩ := by
      rw [astep_cons, astepArg_short _ _ _ _ _ hdc, astepShort_found _ _ _ _ _ _ hfc,
        astepShortFound_mandatory _ _ _ _ _ htc hbc]
    rw [runAbs_cont s1, runAbs_cont s2, runAbs_cont s3]
  have hside2 : runAbs opts ⟨['-', ca] :: ['-', cb] :: ['-', cc] :: X :: B, [], []⟩ =
      runAbs opts ⟨B, [],
        (([] ++ invokeEvents oa none) ++ invokeEvents ob none) ++ invokeEvents oc (some X)⟩ := by
    have s1 : astep opts ⟨['-', ca] :: ['-', cb] :: ['-', cc] :: X :: B, [], []⟩ =
        .cont ⟨['-', cb] :: ['-', cc] :: X :: B, [], [] ++ invokeEvents oa none⟩ := by
      rw [astep_cons, astepArg_short _ _ _ _ _ hda, astepShort_found _ _ _ _ _ _ hfa,
        astepShortFound_noArg _ _ _ _ hna]
    have s2 : astep opts ⟨['-', cb] :: ['-', cc] :: X :: B, [], [] ++ invokeEvents oa none⟩ =
        .cont ⟨['-', cc] :: X :: B, [],
          ([] ++ invokeEvents oa none) ++ invokeEvents ob none⟩ := by
      rw [astep_cons, astepArg_short _ _ _ _ _ hdb, astepShort_found _ _ _ _ _ _ hfb,
        astepShortFound_noArg _ _ _ _ hnb]
    have s3 : astep opts ⟨['-', cc] :: X :: B, [],
        ([] ++ invokeEvents oa none) ++ invokeEvents ob none⟩ =
        .cont ⟨B, [],
          (([] ++ invokeEvents oa none) ++ invokeEvents ob none) ++ invokeEvents oc (some X)⟩ := by
      rw [astep_cons, astepArg_short _ _ _ _ _ hdc, astepShort_found _ _ _ _ _ _ hfc,
        astepShortFound_mandatory _ _ _ _ _ htc hbc]
    rw [runAbs_cont s1, runAbs_cont s2, runAbs_cont s3]
  rw [show ((prog :: ['-', ca, cb, cc] :: X :: B).drop 1) = ['-', ca, cb, cc] :: X :: B
    from rfl]
  rw [show ((prog :: ['-', ca] :: ['-', cb] :: ['-', cc] :: X :: B).drop 1) =
    ['-', ca] :: ['-', cb] :: ['-', cc] :: X :: B from rfl]
  rw [hside1, hside2]

/-- Witness for C2 at the example registry: `-abf out.txt` versus
`-a -b -f out.txt`. -/
theorem claim_C2_witness :
    (exReg.find? (fun o' => o'.short_name == some ['a']) = some exOptA ∧
      truthyS exOptF.arg = true) ∧
    parse exReg ("prog".data :: ['-', 'a', 'b', 'f'] :: "out.txt".data :: []) =
      parse exReg ("prog".data :: ['-', 'a'] :: ['-', 'b'] :: ['-', 'f'] ::
        "out.txt".data :: []) :=
  ⟨⟨by decide, by decide⟩,
    claim_C2 exReg 'a' 'b' 'f' exOptA exOptB exOptF "out.txt".data "prog".data []
      (by decide) (by decide) (by decide) (by decide) (by decide) (by decide) (by decide)
      (by decide) (by decide) (by decide)⟩

/-- C3 counterexample: for the empty value `V = ""`, "attaching" it to the
short form gives the bare token `-o`, and the handler does **not** receive `""`
— the parse fails with a missing-argument error — while the long form
`--opt=` does invoke the handler with `""`. So the claim is false as stated
for every value string `V`. -/
theorem claim_C3_cex :
    parse [⟨0, some ['o'], some "opt".data, some "ARG".data, [], true, false⟩]
        ["prog".data, "-o".data] =
      ⟨true, [], [], some (msgRequiresShort 'o')⟩ ∧
    parse [⟨0, some ['o'], some "opt".data, some "ARG".data, [], true, false⟩]
        ["prog".data, "--opt=".data] =
      ⟨false, [], [.call1 0 (some [])], none⟩ := ⟨by decide, by decide⟩

/-- C3 (amended: for every **non-empty** value string `V`): an option with a
mandatory argument receives the identical value `V` whether it is attached
(`-oV`, `--opt=V`) or supplied as the following separate element (`-o V`,
`--opt V`). (For `V = ""` the attached short form `-oV` is the bare token
`-o`, which instead consumes the next element or fails, see `claim_C3_cex`;
the three other forms do deliver `""`.) -/
theorem claim_C3 (opts : List Opt) (name : Str) (c : Char) (o : Opt) (V prog : Str)
    (hname : name ≠ []) (heq : ¬ '=' ∈ name) (hc : c ≠ '-') (hV : V ≠ [])
    (hfl : opts.find? (fun o' => o'.long_name == some name) = some o)
    (hfs : opts.find? (fun o' => o'.short_name == some [c]) = some o)
    (htr : truthyS o.arg = true) (hbr : startsBracket o.arg = false)
    (hcb : o.hasCallback = true) :
    parse opts [prog, '-' :: c :: V] = ⟨false, [], [.call1 o.id (some V)], none⟩ ∧
    parse opts [prog, '-' :: '-' :: (name ++ '=' :: V)] =
      ⟨false, [], [.call1 o.id (some V)], none⟩ ∧
    parse opts [prog, ['-', c], V] = ⟨false, [], [.call1 o.id (some V)], none⟩ ∧
    parse opts [prog, '-' :: '-' :: name, V] =
      ⟨false, [], [.call1 o.id (some V)], none⟩ := by
  have hinv := invokeEvents_call1 hcb htr
  refine ⟨?_, ?_, ?_, ?_⟩
  · cases V with
    | nil => exact absurd rfl hV
    | cons d tl =>
      have h1 : astep opts ⟨['-' :: c :: d :: tl], [], []⟩ =
          .cont ⟨[], [], [] ++ invokeEvents o (some (d :: tl))⟩ := by
        rw [astep_cons, astepArg_short _ _ _ _ _ hc, astepShort_found _ _ _ _ _ _ hfs,
          astepShortFound_attached _ _ _ _ _ _ htr]
      have hrun := (runAbs_cont h1).trans (runAbs_stop (astep_nil opts [] _))
      rw [parseA_result hrun]
      simp [hinv]
  · have h1 : astep opts ⟨['-' :: '-' :: (name ++ '=' :: V)], [], []⟩ =
        .cont ⟨[], [], [] ++ invokeEvents o (some V)⟩ := by
      rw [astep_cons, astepArg_long _ _ _ _ (by simp), astepLong_eq _ _ _ _ _ heq,
        astepLongGo_found _ _ _ _ _ _ hfl, astepLongFound_attached _ _ _ _ _ htr]
    have hrun := (runAbs_cont h1).trans (runAbs_stop (astep_nil opts [] _))
    rw [parseA_result hrun]
    simp [hinv]
  · have h1 : astep opts ⟨[['-', c], V], [], []⟩ =
        .cont ⟨[], [], [] ++ invokeEvents o (some V)⟩ := by
      rw [astep_cons, astepArg_short _ _ _ _ _ hc, astepShort_found _ _ _ _ _ _ hfs,
        astepShortFound_mandatory _ _ _ _ _ htr hbr]
    have hrun := (runAbs_cont h1).trans (runAbs_stop (astep_nil opts [] _))
    rw [parseA_result hrun]
    simp [hinv]
  · have h1 : astep opts ⟨['-' :: '-' :: name, V], [], []⟩ =
        .cont ⟨[], [], [] ++ invokeEvents o (some V)⟩ := by
      rw [astep_cons, astepArg_long _ _ _ _ hname, astepLong_noeq _ _ _ _ heq,
        astepLongGo_found _ _ _ _ _ _ hfl, astepLongFound_mandatory _ _ _ _ _ htr hbr]
    have hrun := (runAbs_cont h1).trans (runAbs_stop (astep_nil opts [] _))
    rw [parseA_result hrun]
    simp [hinv]

/-- Witness for C3 at the example registry (`-f, --file FILENAME`) with
`V = "out.txt"`. -/
theorem claim_C3_witness :
    (exReg.find? (fun o' => o'.long_name == some "file".data) = some exOptF ∧
      ("out.txt".data : Str) ≠ []) ∧
    (parse exReg ["prog".data, '-' :: 'f' :: "out.txt".data] =
      ⟨false, [], [.call1 exOptF.id (some "out.txt".data)], none⟩ ∧
    parse exReg ["prog".data, '-' :: '-' :: ("file".data ++ '=' :: "out.txt".data)] =
      ⟨false, [], [.call1 exOptF.id (some "out.txt".data)], none⟩ ∧
    parse exReg ["prog".data, ['-', 'f'], "out.txt".data] =
      ⟨false, [], [.call1 exOptF.id (some "out.txt".data)], none⟩ ∧
    parse exReg ["prog".data, '-' :: '-' :: "file".data, "out.txt".data] =
      ⟨false, [], [.call1 exOptF.id (some "out.txt".data)], none⟩) :=
  ⟨⟨by decide, by decide⟩,
    claim_C3 exReg "file".data 'f' exOptF "out.txt".data "prog".data (by decide)
      (by decide) (by decide) (by decide) (by decide) (by decide) (by decide) (by decide)
      (by decide)⟩

/-- C4: when the scanned element is exactly `--`, every remaining element —
regardless of content, leading `-` included — is appended to the operands in
order, unparsed, and the scan stops successfully; in particular
`prog -- -x file` yields operands `["-x", "file"]` for every registry. -/
theorem claim_C4 (opts : List Opt) (a : AbsSt) (R : List Str)
    (h : a.rem = ['-', '-'] :: R) :
    runAbs opts a = (none, ⟨[], a.ops ++ R, a.evs⟩) ∧
    parse opts ["prog".data, "--".data, "-x".data, "file".data] =
      ⟨false, ["-x".data, "file".data], [], none⟩ := by
  constructor
  · obtain ⟨rem, ops, evs⟩ := a
    simp only at h
    subst h
    rw [runAbs_stop (astep_ddash opts R ops evs)]
  · have hr := runAbs_stop (astep_ddash opts ["-x".data, "file".data] [] [])
    rw [parseA_result hr]
    rfl

/-- Witness for C4, with operands already accumulated before the marker. -/
theorem claim_C4_witness :
    ((⟨['-', '-'] :: ["-x".data, "file".data], ["w".data], []⟩ : AbsSt).rem =
      ['-', '-'] :: ["-x".data, "file".data]) ∧
    (runAbs [] ⟨['-', '-'] :: ["-x".data, "file".data], ["w".data], []⟩ =
      (none, ⟨[], ["w".data] ++ ["-x".data, "file".data], []⟩) ∧
    parse [] ["prog".data, "--".data, "-x".data, "file".data] =
      ⟨false, ["-x".data, "file".data], [], none⟩) :=
  ⟨rfl, claim_C4 [] ⟨['-', '-'] :: ["-x".data, "file".data], ["w".data], []⟩
    ["-x".data, "file".data] rfl⟩

/-- C5: a long token whose name is not registered, or a short token whose
character is not registered, makes the parse fail with a non-empty error
message, invokes no handler for that token, and leaves the operands
accumulated so far intact (they are returned unchanged in the failure state);
end to end, `prog w --name` with `name` unregistered fails with the operand
`"w"` retained and no events. -/
theorem claim_C5 (opts : List Opt) (name : Str) (c : Char) (a : AbsSt) (R : List Str)
    (hname : name ≠ []) (heq : ¬ '=' ∈ name) (hc : c ≠ '-')
    (hfl : opts.find? (fun o' => o'.long_name == some name) = none)
    (hfs : opts.find? (fun o' => o'.short_name == some [c]) = none) :
    (a.rem = ('-' :: '-' :: name) :: R →
      runAbs opts a = (some (msgUnknownLong name), a) ∧ msgUnknownLong name ≠ []) ∧
    (a.rem = ['-', c] :: R →
      runAbs opts a = (some (msgUnknownShort c), a) ∧ msgUnknownShort c ≠ []) ∧
    parse opts ["prog".data, "w".data, '-' :: '-' :: name] =
      ⟨true, ["w".data], [], some (msgUnknownLong name)⟩ := by
  refine ⟨?_, ?_, ?_⟩
  · intro h
    obtain ⟨rem, ops, evs⟩ := a
    simp only at h
    subst h
    constructor
    · have h1 : astep opts ⟨('-' :: '-' :: name) :: R, ops, evs⟩ =
          .err (msgUnknownLong name) ⟨('-' :: '-' :: name) :: R, ops, evs⟩ := by
        rw [astep_cons, astepArg_long _ _ _ _ hname, astepLong_noeq _ _ _ _ heq,
          astepLongGo_unknown _ _ _ _ _ hfl]
      rw [runAbs_err h1]
    · intro hnil
      have := congrArg List.length hnil
      simp [msgUnknownLong] at this
  · intro h
    obtain ⟨rem, ops, evs⟩ := a
    simp only at h
    subst h
    constructor
    · have h1 : astep opts ⟨['-', c] :: R, ops, evs⟩ =
          .err (msgUnknownShort c) ⟨['-', c] :: R, ops, evs⟩ := by
        rw [astep_cons, astepArg_short _ _ _ _ _ hc, astepShort_unknown _ _ _ _ _ hfs]
      rw [runAbs_err h1]
    · intro hnil
      have := congrArg List.length hnil
      simp [msgUnknownShort] at this
  · have h1 : astep opts ⟨["w".data, '-' :: '-' :: name], [], []⟩ =
        .cont ⟨['-' :: '-' :: name], [] ++ ["w".data], []⟩ := by
      rw [astep_cons, astepArg_operand _ _ _ _ (by decide) (by decide)]
    have h2 : astep opts ⟨['-' :: '-' :: name], [] ++ ["w".data], []⟩ =
        .err (msgUnknownLong name) ⟨['-' :: '-' :: name], [] ++ ["w".data], []⟩ := by
      rw [astep_cons, astepArg_long _ _ _ _ hname, astepLong_noeq _ _ _ _ heq,
        astepLongGo_unknown _ _ _ _ _ hfl]
    have hrun := (runAbs_cont h1).trans (runAbs_err h2)
    rw [parseA_result hrun]
    rfl

/-- Witness for C5 with `--bogus` and `-z` unregistered in the example
registry, and an operand accumulated before the failure. -/
theorem claim_C5_witness :
    (exReg.find? (fun o' => o'.long_name == some "bogus".data) = none ∧
      exReg.find? (fun o' => o'.short_name == some ['z']) = none) ∧
    ((( ⟨('-' :: '-' :: "bogus".data) :: ["x".data], ["pre".data], []⟩ : AbsSt).rem =
        ('-' :: '-' :: "bogus".data) :: ["x".data] →
      runAbs exReg ⟨('-' :: '-' :: "bogus".data) :: ["x".data], ["pre".data], []⟩ =
        (some (msgUnknownLong "bogus".data),
          ⟨('-' :: '-' :: "bogus".data) :: ["x".data], ["pre".data], []⟩) ∧
      msgUnknownLong "bogus".data ≠ []) ∧
    ((( ⟨('-' :: '-' :: "bogus".data) :: ["x".data], ["pre".data], []⟩ : AbsSt).rem =
        ['-', 'z'] :: ["x".data] →
      runAbs exReg ⟨('-' :: '-' :: "bogus".data) :: ["x".data], ["pre".data], []⟩ =
        (some (msgUnknownShort 'z'),
          ⟨('-' :: '-' :: "bogus".data) :: ["x".data], ["pre".data], []⟩) ∧
      msgUnknownShort 'z' ≠ []) ∧
    parse exReg ["prog".data, "w".data, '-' :: '-' :: "bogus".data] =
      ⟨true, ["w".data], [], some (msgUnknownLong "bogus".data)⟩)) :=
  ⟨⟨by decide, by decide⟩,
    claim_C5 exReg "bogus".data 'z'
      ⟨('-' :: '-' :: "bogus".data) :: ["x".data], ["pre".data], []⟩ ["x".data]
      (by decide) (by decide) (by decide) (by decide) (by decide)⟩

/-- C10: `parse` never mutates the caller's argv list: the session works on
the copy `self.argv` (which the cluster rewrite mutates), while the `caller`
component — the list object the caller passed in — is written by no step of
the session, so after `parse` returns it is element-for-element the list that
was passed in. -/
theorem claim_C10 (opts : List Opt) (argv : List Str) :
    (parseFinal opts argv).caller = argv := by
  unfold parseFinal
  rw [runIt_caller]
  rfl

/-! ## Formatter claims -/

/-- Normal forms of the module constants for a terminal at least 80 columns
wide. -/
theorem maxLineLength_eq : MAX_LINE_LENGTH = 80 := rfl

/-- C6 counterexample: for the single 17-character usage fragment of `cmd6`,
the code's description column is 17, not
`max 17 (MAX_LINE_LENGTH - MIN_DESCRIPTION_WIDTH) = 31` as the claim states:
the clamp on line 357-358 *lowers* an overlong column to 31, it never raises
a short one. -/
theorem claim_C6_cex :
    descColumn (createOptionUsages cmd6) ≠
      max (longestUsageLen (createOptionUsages cmd6))
        (MAX_LINE_LENGTH - MIN_DESCRIPTION_WIDTH) := by decide

/-- C6 (amended): for every non-empty usage list, the description column
computed by `print_help` (lines 356-358) is
`min (longest fragment) (MAX_LINE_LENGTH - MIN_DESCRIPTION_WIDTH)` — the
column is *capped* so the description keeps at least
`MIN_DESCRIPTION_WIDTH` columns; and each individual entry's description
starts at `max` of that column and the entry's own fragment length (an
overlong fragment pushes its description to the right of the shared
column). -/
theorem claim_C6 (us : List (Str × Str)) (_h : us ≠ []) :
    descColumn us
        = min (longestUsageLen us) (MAX_LINE_LENGTH - MIN_DESCRIPTION_WIDTH) ∧
    ∀ u ∈ us,
      (u.1 ++ List.replicate (descColumn us - u.1.length) ' ').length
        = max (descColumn us) u.1.length := by
  constructor
  · unfold descColumn
    rw [maxLineLength_eq]
    show (if 80 - longestUsageLen us < MIN_DESCRIPTION_WIDTH then _ else _) = _
    unfold MIN_DESCRIPTION_WIDTH
    split <;> omega
  · intro u _
    simp [List.length_append, List.length_replicate]
    omega

/-- C6 witness: the amended theorem at the usage list of `cmd6`. -/
theorem claim_C6_witness :
    createOptionUsages cmd6 ≠ [] ∧
    (descColumn (createOptionUsages cmd6)
        = min (longestUsageLen (createOptionUsages cmd6))
            (MAX_LINE_LENGTH - MIN_DESCRIPTION_WIDTH) ∧
      ∀ u ∈ createOptionUsages cmd6,
        (u.1 ++ List.replicate (descColumn (createOptionUsages cmd6) - u.1.length) ' ').length
          = max (descColumn (createOptionUsages cmd6)) u.1.length) :=
  ⟨by decide, claim_C6 (createOptionUsages cmd6) (by decide)⟩

/-- C7: the claim is right and the code is wrong. A command whose options are
all hidden makes `cmd.options` truthy, so `print_help` enters the options
branch, prints the `Options:` header, and then applies Python `max` to the
empty `option_usages` list, raising `ValueError` instead of completing with
no `Options:` section (contradicting the documented meaning of `hidden`:
such options merely "won't appear in the help output"). In the embedding the
crash is the `none` result, reached for every fuel value. -/
theorem claim_C7 : ∀ fuel : Nat, printHelp fuel cmd7 = none := fun _ => rfl

/-! ## Infrastructure for the wrap-loop claims (C8, C9) -/

/-- Accumulator elimination for `next_word_len`: from position at least 1 the
result is the position plus a chunk length depending only on the string. -/
theorem nwlAux_eq (s : List Char) : ∀ (ign : Bool) (i : Nat), 1 ≤ i →
    nextWordLenAux s ign i = i + nextWordCore s ign := by
  induction s with
  | nil => intro ign i _; rfl
  | cons c r ih =>
    intro ign i hi
    show (if c = ' ' then _ else _) = i + (if c = ' ' then _ else _)
    by_cases hc : c = ' '
    · rw [if_pos hc, if_pos hc]
      cases ign with
      | true => simp [nextWordLenAux, nextWordCore]
      | false =>
        show nextWordLenAux r false (i+1) = i + (1 + nextWordCore r false)
        rw [ih false (i+1) (by omega)]; omega
    · rw [if_neg hc, if_neg hc]
      by_cases hn : c = '\n'
      · rw [if_pos hn, if_pos hn, if_neg (by omega : ¬ i = 0)]; omega
      · rw [if_neg hn, if_neg hn, ih true (i+1) (by omega)]; omega

/-- The first chunk of a string starting with a space. -/
theorem nextWordLen_space (r : List Char) :
    nextWordLen (' ' :: r) = 1 + nextWordCore r false := by
  show nextWordLenAux r false 1 = _
  rw [nwlAux_eq r false 1 (by omega)]

/-- The first chunk of a string starting with a word character. -/
theorem nextWordLen_word (c : Char) (r : List Char) (hc : ¬ c = ' ')
    (hn : ¬ c = '\n') : nextWordLen (c :: r) = 1 + nextWordCore r true := by
  show (if c = ' ' then _ else _) = _
  rw [if_neg hc, if_neg hn, nwlAux_eq r true 1 (by omega)]

/-- The chunk never reaches past the end of the string. -/
theorem nextWordCore_le_length (s : List Char) : ∀ ign,
    nextWordCore s ign ≤ s.length := by
  induction s with
  | nil => intro ign; exact Nat.le_refl 0
  | cons c r ih =>
    intro ign
    show (if c = ' ' then _ else _) ≤ r.length + 1
    have h1 := ih true
    have h2 := ih ign
    split
    · split <;> omega
    · split <;> omega

/-- The chunk contains no line break. -/
theorem nextWordCore_nlFree (s : List Char) : ∀ ign,
    nlFree (s.take (nextWordCore s ign)) := by
  induction s with
  | nil => intro ign; simp [nlFree]
  | cons c r ih =>
    intro ign
    simp only [nextWordCore]
    by_cases hc : c = ' '
    · rw [if_pos hc]
      cases ign with
      | true => simp [nlFree]
      | false =>
        rw [if_neg (by decide), Nat.add_comm 1 _, List.take_succ_cons]
        have := ih false
        simp only [nlFree, List.mem_cons] at *
        rintro (h | h)
        · rw [hc] at h; exact absurd h.symm (by decide)
        · exact this h
    · rw [if_neg hc]
      by_cases hn : c = '\n'
      · rw [if_pos hn]; simp [nlFree]
      · rw [if_neg hn, Nat.add_comm 1 _, List.take_succ_cons]
        have := ih true
        simp only [nlFree, List.mem_cons] at *
        rintro (h | h)
        · exact hn h.symm
        · exact this h

/-- After the chunk the string is exhausted or continues with whitespace. -/
theorem nextWordCore_drop_ws (s : List Char) : ∀ ign,
    (s.drop (nextWordCore s ign)).headD ' ' = ' ' ∨
      (s.drop (nextWordCore s ign)).headD ' ' = '\n' := by
  induction s with
  | nil => intro ign; left; rfl
  | cons c r ih =>
    intro ign
    simp only [nextWordCore]
    by_cases hc : c = ' '
    · rw [if_pos hc]
      cases ign with
      | true => left; simp [hc]
      | false =>
        rw [if_neg (by decide), Nat.add_comm 1 _, List.drop_succ_cons]
        exact ih false
    · rw [if_neg hc]
      by_cases hn : c = '\n'
      · rw [if_pos hn]; right; simp [hn]
      · rw [if_neg hn, Nat.add_comm 1 _, List.drop_succ_cons]
        exact ih true

/-- An empty chunk means an exhausted string. -/
theorem nextWordLen_zero (s : List Char) (h : nextWordLen s = 0) : s = [] := by
  cases s with
  | nil => rfl
  | cons c r =>
    by_cases hc : c = ' '
    · subst hc; rw [nextWordLen_space] at h; omega
    · by_cases hn : c = '\n'
      · subst hn
        have h1 : nextWordLen ('\n' :: r) = 1 := rfl
        omega
      · rw [nextWordLen_word c r hc hn] at h; omega

/-- The chunk never reaches past the end of the string. -/
theorem nextWordLen_le_length (s : List Char) : nextWordLen s ≤ s.length := by
  cases s with
  | nil => exact Nat.le_refl 0
  | cons c r =>
    by_cases hc : c = ' '
    · subst hc; rw [nextWordLen_space]
      have := nextWordCore_le_length r false
      simp; omega
    · by_cases hn : c = '\n'
      · subst hn
        have h1 : nextWordLen ('\n' :: r) = 1 := rfl
        simp [h1]
      · rw [nextWordLen_word c r hc hn]
        have := nextWordCore_le_length r true
        simp; omega

/-- The chunk of a string not starting with a line break contains none. -/
theorem take_nextWordLen_nlFree (s : List Char) (h : s.headD ' ' ≠ '\n') :
    nlFree (s.take (nextWordLen s)) := by
  cases s with
  | nil => simp [nlFree]
  | cons c r =>
    have hn : ¬ c = '\n' := by simpa using h
    by_cases hc : c = ' '
    · subst hc
      rw [nextWordLen_space, Nat.add_comm 1 _, List.take_succ_cons]
      have := nextWordCore_nlFree r false
      simp only [nlFree, List.mem_cons] at *
      rintro (hx | hx)
      · exact absurd hx.symm (by decide)
      · exact this hx
    · rw [nextWordLen_word c r hc hn, Nat.add_comm 1 _, List.take_succ_cons]
      have := nextWordCore_nlFree r true
      simp only [nlFree, List.mem_cons] at *
      rintro (hx | hx)
      · exact hn hx.symm
      · exact this hx

/-- After consuming the chunk of a string not starting with a line break, the
rest is exhausted or starts with whitespace. -/
theorem drop_nextWordLen_ws (s : List Char) (h : s.headD ' ' ≠ '\n') :
    (s.drop (nextWordLen s)).headD ' ' = ' ' ∨
      (s.drop (nextWordLen s)).headD ' ' = '\n' := by
  cases s with
  | nil => left; rfl
  | cons c r =>
    have hn : ¬ c = '\n' := by simpa using h
    by_cases hc : c = ' '
    · subst hc
      rw [nextWordLen_space, Nat.add_comm 1 _, List.drop_succ_cons]
      exact nextWordCore_drop_ws r false
    · rw [nextWordLen_word c r hc hn, Nat.add_comm 1 _, List.drop_succ_cons]
      exact nextWordCore_drop_ws r true

/-- Columns compose over concatenation. -/
theorem lastLen_append (a : Str) : ∀ (b : Str) (k : Nat),
    lastLen (a ++ b) k = lastLen b (lastLen a k) := by
  induction a with
  | nil => intro b k; rfl
  | cons c r ih => intro b k; simp only [List.cons_append, lastLen]; exact ih b _

/-- Printing a break-free string just advances the column by its length. -/
theorem lastLen_nlFree (a : Str) : ∀ k, nlFree a → lastLen a k = k + a.length := by
  induction a with
  | nil => intro k _; simp [lastLen]
  | cons c r ih =>
    intro k h
    simp only [nlFree, List.mem_cons, not_or] at h
    simp only [lastLen, if_neg (fun hc : c = '\n' => h.1 hc.symm)]
    rw [ih (k+1) h.2]
    simp; omega

/-- Closed-line checking composes over concatenation. -/
theorem closedOk_append (w : Nat) (a : Str) : ∀ (b : Str) (k : Nat),
    closedOk w (a ++ b) k = (closedOk w a k && closedOk w b (lastLen a k)) := by
  induction a with
  | nil => intro b k; rfl
  | cons c r ih =>
    intro b k
    simp only [List.cons_append, closedOk, lastLen, List.append_eq]
    by_cases hc : c = '\n'
    · rw [if_pos hc, if_pos hc, if_pos hc, ih b 0, Bool.and_assoc]
    · rw [if_neg hc, if_neg hc, if_neg hc, ih b (k+1)]

/-- A break-free string closes no line. -/
theorem closedOk_nlFree (w : Nat) (a : Str) : ∀ k, nlFree a → closedOk w a k = true := by
  induction a with
  | nil => intro k _; rfl
  | cons c r ih =>
    intro k h
    simp only [nlFree, List.mem_cons, not_or] at h
    simp only [closedOk, if_neg (fun hc : c = '\n' => h.1 hc.symm)]
    exact ih (k+1) h.2

/-- A line break alone closes the current line. -/
theorem closedOk_nl (w k : Nat) : closedOk w ['\n'] k = decide (k ≤ w) := by
  simp [closedOk]

/-- A run of spaces is break-free. -/
theorem nlFree_replicate (n : Nat) : nlFree (List.replicate n ' ') := by
  simp [nlFree, List.mem_replicate]

/-- Prefixes of break-free strings are break-free. -/
theorem nlFree_take (s : Str) (n : Nat) (h : nlFree s) : nlFree (s.take n) :=
  fun hm => h ((List.take_sublist n s).subset hm)

/-- Suffixes of break-free strings are break-free. -/
theorem nlFree_drop (s : Str) (n : Nat) (h : nlFree s) : nlFree (s.drop n) :=
  fun hm => h ((List.drop_sublist n s).subset hm)

/-- Break-freeness is closed under concatenation. -/
theorem nlFree_append (a b : Str) (ha : nlFree a) (hb : nlFree b) :
    nlFree (a ++ b) := by
  simp only [nlFree, List.mem_append, not_or] at *
  exact ⟨ha, hb⟩

/-- Post-break suffixes of the tail are post-break suffixes. -/
theorem nlSuffixes_tail_subset (s : Str) : nlSuffixes s.tail ⊆ nlSuffixes s := by
  cases s with
  | nil => exact fun x h => h
  | cons c r =>
    show nlSuffixes r ⊆ (if c = '\n' then [r] else []) ++ nlSuffixes r
    exact List.subset_append_right _ _

/-- Post-break suffixes of any suffix are post-break suffixes. -/
theorem nlSuffixes_drop_subset (s : Str) : ∀ d, nlSuffixes (s.drop d) ⊆ nlSuffixes s := by
  intro d
  induction d with
  | zero => exact fun x h => h
  | succ n ih =>
    intro x hx
    apply ih
    rw [← List.tail_drop] at hx
    exact nlSuffixes_tail_subset (s.drop n) hx

/-- The text after a line break at position `k` is a post-break suffix. -/
theorem mem_nlSuffixes_of_drop (s : Str) (k : Nat) (r : Str)
    (h : s.drop k = '\n' :: r) : r ∈ nlSuffixes s := by
  apply nlSuffixes_drop_subset s k
  rw [h]
  show r ∈ (if ('\n' : Char) = '\n' then [r] else []) ++ nlSuffixes r
  rw [if_pos rfl]
  exact List.mem_append_left _ (List.mem_singleton.mpr rfl)

/-- Any suffix index can be capped at the string length. -/
theorem drop_min_length (s : Str) (j : Nat) : s.drop j = s.drop (min j s.length) := by
  by_cases h : j ≤ s.length
  · rw [min_eq_left h]
  · rw [min_eq_right (by omega), List.drop_length, List.drop_eq_nil_iff]
    omega

/-- Splitting a string that is exhausted or starts with whitespace flushes
any pending word first. -/
theorem wordsAux_flush (b : Str) (hb : b.headD ' ' = ' ' ∨ b.headD ' ' = '\n') :
    ∀ w, wordsAux b w = flushW w ++ wordsAux b [] := by
  intro w
  cases b with
  | nil => simp [wordsAux, flushW]
  | cons c r =>
    have hcw : isWs c = true := by
      simp only [List.headD_cons] at hb
      rcases hb with h | h <;> simp [isWs, h]
    simp [wordsAux, hcw, flushW]

/-- Word splitting distributes over concatenation when the right part is
exhausted or starts with whitespace. -/
theorem wordsAux_append (b : Str) (hb : b.headD ' ' = ' ' ∨ b.headD ' ' = '\n') :
    ∀ (a : Str) (w : Str), wordsAux (a ++ b) w = wordsAux a w ++ wordsAux b [] := by
  intro a
  induction a with
  | nil => intro w; exact wordsAux_flush b hb w
  | cons c r ih =>
    intro w
    by_cases hcw : isWs c = true
    · simp only [List.cons_append, wordsAux, hcw, if_pos, List.append_eq]
      rw [ih []]
      simp [List.append_assoc]
    · simp only [List.cons_append, wordsAux, hcw, List.append_eq]
      simp only [Bool.false_eq_true, if_false]
      exact ih (c :: w)

/-- `wordsOf` distributes over concatenation when the right part is exhausted
or starts with whitespace. -/
theorem wordsOf_append (a b : Str) (hb : b.headD ' ' = ' ' ∨ b.headD ' ' = '\n') :
    wordsOf (a ++ b) = wordsOf a ++ wordsOf b :=
  wordsAux_append b hb a []

/-- Leading whitespace does not contribute a word. -/
theorem wordsOf_ws_cons (c : Char) (r : Str) (hc : isWs c = true) :
    wordsOf (c :: r) = wordsOf r := by
  simp [wordsOf, wordsAux, hc, flushW]

/-- A run of spaces has no words. -/
theorem wordsOf_replicate_sp (n : Nat) : wordsOf (List.replicate n ' ') = [] := by
  induction n with
  | zero => rfl
  | succ m ih => rw [List.replicate_succ, wordsOf_ws_cons ' ' _ (by decide)]; exact ih

/-- A nonempty list decomposes at its last element. -/
theorem exists_concat_of_getLast (l : Str) (x : Char) (h : l.getLast? = some x) :
    ∃ l', l = l' ++ [x] := by
  induction l with
  | nil => exact absurd h (by simp)
  | cons c r ih =>
    cases r with
    | nil => simp only [List.getLast?_singleton, Option.some_inj] at h; exact ⟨[], by simp [h]⟩
    | cons d t =>
      rw [List.getLast?_cons_cons] at h
      obtain ⟨l', hl⟩ := ih h
      exact ⟨c :: l', by rw [hl]; rfl⟩

/-- Appending trailing whitespace does not change the words. -/
theorem wordsOf_append_ws (a : Str) (c : Char) (hc : isWs c = true) :
    wordsOf (a ++ [c]) = wordsOf a := by
  have hcd : ([c] : Str).headD ' ' = ' ' ∨ ([c] : Str).headD ' ' = '\n' := by
    simp only [isWs, Bool.or_eq_true, decide_eq_true_eq] at hc
    rcases hc with h | h <;> simp [h]
  rw [wordsOf_append a [c] hcd, wordsOf_ws_cons c [] hc]
  simp [wordsOf, wordsAux, flushW]

/-- `wordsOf` distributes over concatenation when the left part ends with
whitespace. -/
theorem wordsOf_append_left (a b : Str) (c : Char) (hl : a.getLast? = some c)
    (hc : isWs c = true) : wordsOf (a ++ b) = wordsOf a ++ wordsOf b := by
  obtain ⟨a', ha⟩ := exists_concat_of_getLast a c hl
  subst ha
  have hhead : (c :: b).headD ' ' = ' ' ∨ (c :: b).headD ' ' = '\n' := by
    simp only [isWs, Bool.or_eq_true, decide_eq_true_eq] at hc
    rcases hc with h | h <;> simp [h]
  have h1 : a' ++ [c] ++ b = a' ++ (c :: b) := by simp
  rw [h1, wordsOf_append a' (c :: b) hhead, wordsOf_ws_cons c b hc,
      wordsOf_append_ws a' c hc]

/-- The `col == 0` block right after an explicit line break with a space
ahead: emit the line prefix, then measure the new carried indentation. -/
theorem colZero_measure (S : Nat) (s : BlockSt) (hsp : s.string.headD '\n' = ' ')
    (hlb : s.linebreak = true) :
    colZero S s = .go ⟨s.string, S + s.indentation, getIndent s.string, false,
      s.out ++ List.replicate (S + s.indentation) ' '⟩ := by
  unfold colZero
  rw [if_pos hsp, if_pos hlb]
  by_cases hi : s.indentation = 0
  · rw [if_neg (by rw [hi]; exact fun hx => hx rfl), if_neg (by rw [hi]; exact fun hx => hx rfl)]
    show ColRes.go _ = _
    simp [hi]
  · rw [if_pos hi, if_pos hi]
    show ColRes.go _ = _
    rw [List.replicate_add, ← List.append_assoc]

/-- The `col == 0` block mid-paragraph with a space ahead: emit the line
prefix and drop the single space (Python `continue`). -/
theorem colZero_more (S : Nat) (s : BlockSt) (hsp : s.string.headD '\n' = ' ')
    (hlb : s.linebreak = false) :
    colZero S s = .more ⟨s.string.tail, S + s.indentation, s.indentation, false,
      s.out ++ List.replicate (S + s.indentation) ' '⟩ := by
  unfold colZero
  rw [if_pos hsp, if_neg (by rw [hlb]; exact fun hx => Bool.noConfusion hx)]
  by_cases hi : s.indentation = 0
  · rw [if_neg (by rw [hi]; exact fun hx => hx rfl), if_neg (by rw [hi]; exact fun hx => hx rfl)]
    show ColRes.more _ = _
    simp [hi, hlb]
  · rw [if_pos hi, if_pos hi]
    show ColRes.more _ = _
    rw [List.replicate_add, ← List.append_assoc, hlb]

/-- The `col == 0` block with a word character ahead: emit the line prefix
and clear the line-break flag. -/
theorem colZero_go (S : Nat) (s : BlockSt) (hsp : ¬ s.string.headD '\n' = ' ') :
    colZero S s = .go ⟨s.string, S + s.indentation, s.indentation, false,
      s.out ++ List.replicate (S + s.indentation) ' '⟩ := by
  unfold colZero
  rw [if_neg hsp]
  by_cases hi : s.indentation = 0
  · rw [if_neg (by rw [hi]; exact fun hx => hx rfl), if_neg (by rw [hi]; exact fun hx => hx rfl)]
    show ColRes.go _ = _
    simp [hi]
  · rw [if_pos hi, if_pos hi]
    show ColRes.go _ = _
    rw [List.replicate_add, ← List.append_assoc]

/-- The loop breaks exactly on the exhausted string. -/
theorem blockIter_none (S : Nat) (s : BlockSt) (h : blockIter S s = none) :
    s.string = [] := by
  unfold blockIter at h
  by_cases hwl : nextWordLen s.string = 0
  · exact nextWordLen_zero _ hwl
  · rw [if_neg hwl] at h
    by_cases hnl : s.string.headD ' ' = '\n'
    · rw [if_pos hnl] at h; exact Option.noConfusion h
    · rw [if_neg hnl] at h
      cases hx : (if s.col = 0 then colZero S s else ColRes.go s) with
      | more s' => rw [hx] at h; exact Option.noConfusion h
      | go s' => rw [hx] at h; exact Option.noConfusion h

/-- Case analysis of one loop iteration: explicit line break, space-dropping
`continue`, or word processing from the three possible `col == 0` entries. -/
theorem blockIter_shapes (S : Nat) (s t : BlockSt) (h : blockIter S s = some t) :
    (s.string.headD ' ' = '\n' ∧ t = nlStep s) ∨
    (s.string ≠ [] ∧ s.string.headD ' ' ≠ '\n' ∧
      ((s.col = 0 ∧ s.string.headD '\n' = ' ' ∧ s.linebreak = false ∧
          t = ⟨s.string.tail, S + s.indentation, s.indentation, false,
                s.out ++ List.replicate (S + s.indentation) ' '⟩) ∨
       (s.col = 0 ∧ s.string.headD '\n' = ' ' ∧ s.linebreak = true ∧
          t = wordStep S ⟨s.string, S + s.indentation, getIndent s.string, false,
                s.out ++ List.replicate (S + s.indentation) ' '⟩) ∨
       (s.col = 0 ∧ ¬ s.string.headD '\n' = ' ' ∧
          t = wordStep S ⟨s.string, S + s.indentation, s.indentation, false,
                s.out ++ List.replicate (S + s.indentation) ' '⟩) ∨
       (s.col ≠ 0 ∧ t = wordStep S s))) := by
  unfold blockIter at h
  by_cases hwl : nextWordLen s.string = 0
  · rw [if_pos hwl] at h; exact Option.noConfusion h
  · rw [if_neg hwl] at h
    have hne : s.string ≠ [] := fun he => hwl (by rw [he]; rfl)
    by_cases hnl : s.string.headD ' ' = '\n'
    · rw [if_pos hnl] at h
      exact Or.inl ⟨hnl, (Option.some_inj.mp h).symm⟩
    · rw [if_neg hnl] at h
      refine Or.inr ⟨hne, hnl, ?_⟩
      by_cases hc : s.col = 0
      · rw [if_pos hc] at h
        by_cases hsp : s.string.headD '\n' = ' '
        · cases hlb : s.linebreak with
          | false =>
            rw [colZero_more S s hsp hlb] at h
            exact Or.inl ⟨hc, hsp, rfl, (Option.some_inj.mp h).symm⟩
          | true =>
            rw [colZero_measure S s hsp hlb] at h
            exact Or.inr (Or.inl ⟨hc, hsp, rfl, (Option.some_inj.mp h).symm⟩)
        · rw [colZero_go S s hsp] at h
          exact Or.inr (Or.inr (Or.inl ⟨hc, hsp, (Option.some_inj.mp h).symm⟩))
      · rw [if_neg hc] at h
        exact Or.inr (Or.inr (Or.inr ⟨hc, (Option.some_inj.mp h).symm⟩))

/-- Case analysis of the word-emission logic. -/
theorem wordStep_shapes (S : Nat) (s' : BlockSt) :
    ((nextWordLen s'.string : Int) > (MAX_LINE_LENGTH : Int) - (s'.col : Int) ∧
      (s'.col = S ∨ (s'.indentation ≠ 0 ∧ s'.col = S + s'.indentation)) ∧
      wordStep S s' = wordSplit s') ∨
    ((nextWordLen s'.string : Int) > (MAX_LINE_LENGTH : Int) - (s'.col : Int) ∧
      ¬ (s'.col = S ∨ (s'.indentation ≠ 0 ∧ s'.col = S + s'.indentation)) ∧
      wordStep S s' = wordNL s') ∨
    (¬ ((nextWordLen s'.string : Int) > (MAX_LINE_LENGTH : Int) - (s'.col : Int)) ∧
      wordStep S s' = wordFit s') := by
  unfold wordStep
  by_cases h1 : (nextWordLen s'.string : Int) > (MAX_LINE_LENGTH : Int) - (s'.col : Int)
  · rw [if_pos h1]
    by_cases h2 : s'.col = S ∨ (s'.indentation ≠ 0 ∧ s'.col = S + s'.indentation)
    · rw [if_pos h2]; exact Or.inl ⟨h1, h2, rfl⟩
    · rw [if_neg h2]; exact Or.inr (Or.inl ⟨h1, h2, rfl⟩)
  · rw [if_neg h1]; exact Or.inr (Or.inr ⟨h1, rfl⟩)

/-- A terminating run started in an invariant state ends in an invariant
state with an exhausted string, the output being its text plus the final
closing line break. -/
theorem printBlockLoop_run (P : BlockSt → Prop) (S : Nat)
    (hstep : ∀ s t, P s → blockIter S s = some t → P t) :
    ∀ (fuel : Nat) (s : BlockSt) (out : Str), P s →
      printBlockLoop S fuel s = some out →
      ∃ f : BlockSt, P f ∧ f.string = [] ∧ out = f.out ++ ['\n'] := by
  intro fuel
  induction fuel with
  | zero => intro s out _ h; exact Option.noConfusion h
  | succ n ih =>
    intro s out hP h
    simp only [printBlockLoop] at h
    cases hb : blockIter S s with
    | none =>
      rw [hb] at h
      exact ⟨s, hP, blockIter_none S s hb, (Option.some_inj.mp h).symm⟩
    | some t =>
      rw [hb] at h
      exact ih t out (hstep s t hP hb) h

/-- Closing a line appends its text and a break. -/
theorem joinNl_concat (ls : List Str) (c : Str) :
    joinNl (ls ++ [c]) = joinNl ls ++ (c ++ ['\n']) := by
  induction ls with
  | nil => rfl
  | cons l t ih => simp only [List.cons_append, joinNl, ih, List.append_assoc, List.append_eq]

/-- A line keeps its space indentation when text is appended to it. -/
theorem pfxSp_append (k : Nat) (l x : Str) (h : pfxSp k l) : pfxSp k (l ++ x) := by
  have hlen : k ≤ l.length := by
    have hc := congrArg List.length h
    simp only [List.length_take, List.length_replicate] at hc
    omega
  unfold pfxSp
  rw [List.take_append_of_le_length hlen]
  exact h

/-- A line made of `k` spaces plus anything starts with `k` spaces. -/
theorem pfxSp_replicate (k : Nat) (x : Str) : pfxSp k (List.replicate k ' ' ++ x) := by
  apply pfxSp_append
  unfold pfxSp
  rw [List.take_of_length_le (by simp)]

/-- Appended spaces contribute no words when the output ends at a line start. -/
theorem wordsOf_out_repl (out : Str) (n : Nat)
    (h : out = [] ∨ out.getLast? = some '\n') :
    wordsOf (out ++ List.replicate n ' ') = wordsOf out := by
  rcases h with h | h
  · subst h; simp only [List.nil_append]; exact wordsOf_replicate_sp n
  · rw [wordsOf_append_left out _ '\n' h (by decide), wordsOf_replicate_sp n,
        List.append_nil]

/-- Word splitting distributes over a concatenation whose boundary touches
whitespace on either side (or an empty left part). -/
theorem wordsOf_split_bnd (a b : Str)
    (h : b.headD ' ' = ' ' ∨ b.headD ' ' = '\n' ∨ a = [] ∨
      a.getLast? = some ' ' ∨ a.getLast? = some '\n') :
    wordsOf (a ++ b) = wordsOf a ++ wordsOf b := by
  rcases h with h | h | h | h | h
  · exact wordsOf_append a b (Or.inl h)
  · exact wordsOf_append a b (Or.inr h)
  · subst h; rfl
  · exact wordsOf_append_left a b ' ' h (by decide)
  · exact wordsOf_append_left a b '\n' h (by decide)

/-- Taking at least one character keeps the head. -/
theorem headD_take (s : Str) (n : Nat) (d : Char) (h : 1 ≤ n) :
    (s.take n).headD d = s.headD d := by
  cases s with
  | nil => simp
  | cons c r =>
    cases n with
    | zero => omega
    | succ m => simp

/-- The last element of a nonempty concatenation. -/
theorem getLast_concat_eq (l : Str) (a : Char) : (l ++ [a]).getLast? = some a := by
  induction l with
  | nil => rfl
  | cons c r ih =>
    rw [List.cons_append, List.getLast?_cons, ih]
    rfl

/-- A nonempty run of appended spaces makes the output end in a space. -/
theorem getLast_out_repl (out : Str) (n : Nat) (h : 1 ≤ n) :
    (out ++ List.replicate n ' ').getLast? = some ' ' := by
  cases n with
  | zero => omega
  | succ m =>
    rw [List.replicate_succ', ← List.append_assoc]
    exact getLast_concat_eq _ ' '

/-- One loop iteration preserves the word-content invariant provided no chunk
can overflow a line that starts at column `S` plus any indentation the text
can generate (bound `M`): the hard-split branch is then unreachable, and the
emitted text keeps exactly the words of the input. -/
theorem wrapWordsStep (s₀ : Str) (M S : Nat)
    (HM : ∀ b ∈ nlSuffixes s₀, getIndent b ≤ M)
    (HW : ∀ k, k ≤ s₀.length → nextWordLen (s₀.drop k) + S + M ≤ MAX_LINE_LENGTH)
    (s t : BlockSt)
    (hP : (wordsOf s.out ++ wordsOf s.string = wordsOf s₀) ∧
      (s.col = 0 → s.out = [] ∨ s.out.getLast? = some '\n') ∧
      (s.string.headD ' ' = ' ' ∨ s.string.headD ' ' = '\n' ∨
        s.out = [] ∨ s.out.getLast? = some ' ' ∨ s.out.getLast? = some '\n') ∧
      (∃ k, k ≤ s₀.length ∧ s.string = s₀.drop k) ∧
      s.indentation ≤ M ∧
      (s.linebreak = true → getIndent s.string ≤ M) ∧
      (s.linebreak = true → s.col = 0))
    (hb : blockIter S s = some t) :
    (wordsOf t.out ++ wordsOf t.string = wordsOf s₀) ∧
      (t.col = 0 → t.out = [] ∨ t.out.getLast? = some '\n') ∧
      (t.string.headD ' ' = ' ' ∨ t.string.headD ' ' = '\n' ∨
        t.out = [] ∨ t.out.getLast? = some ' ' ∨ t.out.getLast? = some '\n') ∧
      (∃ k, k ≤ s₀.length ∧ t.string = s₀.drop k) ∧
      t.indentation ≤ M ∧
      (t.linebreak = true → getIndent t.string ≤ M) ∧
      (t.linebreak = true → t.col = 0) := by
  obtain ⟨W1, B0, Bnd, ⟨k, hk, hks⟩, W6, W7, W10⟩ := hP
  have hdropk : ∀ d, ∃ j, j ≤ s₀.length ∧ s.string.drop d = s₀.drop j := by
    intro d
    refine ⟨min (k + d) s₀.length, Nat.min_le_right _ _, ?_⟩
    rw [hks, List.drop_drop, ← drop_min_length, Nat.add_comm]
  rcases blockIter_shapes S s t hb with ⟨hnl, ht⟩ | ⟨hne, hnl, hcase⟩
  · -- explicit line break
    cases hs : s.string with
    | nil => rw [hs] at hnl; exact absurd hnl (by decide)
    | cons c rest =>
      rw [hs] at hnl
      have hc : c = '\n' := by simpa using hnl
      subst hc
      have hdrop : s₀.drop k = '\n' :: rest := by rw [← hks, hs]
      have hklen : k + 1 ≤ s₀.length := by
        have h1 := congrArg List.length hdrop
        simp only [List.length_drop, List.length_cons] at h1
        omega
      subst ht
      refine ⟨?_, ?_, ?_, ?_, ?_, ?_, ?_⟩
      · show wordsOf (s.out ++ ['\n']) ++ wordsOf s.string.tail = wordsOf s₀
        rw [hs, wordsOf_append_ws s.out '\n' (by decide)]
        have := W1
        rw [hs, wordsOf_ws_cons '\n' rest (by decide)] at this
        simpa using this
      · intro _
        right
        exact getLast_concat_eq s.out '\n'
      · right; right; right; right
        exact getLast_concat_eq s.out '\n'
      · refine ⟨k + 1, hklen, ?_⟩
        show s.string.tail = _
        rw [hks, List.tail_drop]
      · exact Nat.zero_le M
      · intro _
        show getIndent s.string.tail ≤ M
        rw [hs]
        exact HM rest (mem_nlSuffixes_of_drop s₀ k rest hdrop)
      · intro _; rfl
  · -- no explicit break ahead
    have hhead : s.string.headD '\n' = ' ' → s.string.headD ' ' = ' ' := by
      intro h
      cases hs : s.string with
      | nil => rfl
      | cons c rest => rw [hs] at h; simpa using h
    have hwl1 : 1 ≤ nextWordLen s.string :=
      Nat.pos_of_ne_zero (fun hz => hne (nextWordLen_zero _ hz))
    have hwM : nextWordLen s.string + S + M ≤ MAX_LINE_LENGTH := by
      have := HW k hk
      rw [← hks] at this
      exact this
    have h80 : MAX_LINE_LENGTH = 80 := rfl
    -- facts for the word-fit outcome, shared by three entry points
    have hfitW1 : ∀ A : Str, wordsOf A = wordsOf s.out →
        (s.string.take (nextWordLen s.string)).headD ' ' = ' ' ∨
          (s.string.take (nextWordLen s.string)).headD ' ' = '\n' ∨ A = [] ∨
          A.getLast? = some ' ' ∨ A.getLast? = some '\n' →
        wordsOf (A ++ s.string.take (nextWordLen s.string)) ++
          wordsOf (s.string.drop (nextWordLen s.string)) = wordsOf s₀ := by
      intro A hA hbnd
      rw [wordsOf_split_bnd A _ hbnd, List.append_assoc, hA]
      have h2 : wordsOf (s.string.take (nextWordLen s.string)) ++
          wordsOf (s.string.drop (nextWordLen s.string)) = wordsOf s.string := by
        have := wordsOf_append (s.string.take (nextWordLen s.string))
          (s.string.drop (nextWordLen s.string)) (drop_nextWordLen_ws s.string hnl)
        rw [List.take_append_drop] at this
        exact this.symm
      rw [h2, W1]
    have hdropws := drop_nextWordLen_ws s.string hnl
    rcases hcase with ⟨hc0, hsp, hlb, ht⟩ | ⟨hc0, hsp, hlb, ht⟩ | ⟨hc0, hsp, ht⟩ | ⟨hc, ht⟩
    · -- space-dropping continue
      cases hs : s.string with
      | nil => exact absurd hs hne
      | cons c rest =>
        rw [hs] at hsp
        have hc' : c = ' ' := by simpa using hsp
        subst hc'
        subst ht
        refine ⟨?_, ?_, ?_, ?_, W6, ?_, ?_⟩
        · show wordsOf (s.out ++ List.replicate (S + s.indentation) ' ') ++
            wordsOf s.string.tail = wordsOf s₀
          rw [wordsOf_out_repl s.out _ (B0 hc0), hs]
          have := W1
          rw [hs, wordsOf_ws_cons ' ' rest (by decide)] at this
          simpa using this
        · intro h0
          show s.out ++ List.replicate (S + s.indentation) ' ' = [] ∨ _
          have hz : S + s.indentation = 0 := h0
          rw [hz, List.replicate_zero, List.append_nil]
          exact B0 hc0
        · rcases Nat.eq_zero_or_pos (S + s.indentation) with hz | hpos
          · rw [hz, List.replicate_zero, List.append_nil]
            rcases B0 hc0 with h | h
            · right; right; exact Or.inl h
            · right; right; right; right; exact h
          · right; right; right; left
            exact getLast_out_repl s.out _ hpos
        · refine ⟨min (k + 1) s₀.length, Nat.min_le_right _ _, ?_⟩
          show s.string.tail = _
          rw [hks, List.tail_drop, ← drop_min_length, Nat.add_comm]
        · intro hx; exact Bool.noConfusion hx
        · intro hx; exact Bool.noConfusion hx
    · -- col == 0 entry, measuring a fresh indentation
      rcases wordStep_shapes S ⟨s.string, S + s.indentation, getIndent s.string, false,
          s.out ++ List.replicate (S + s.indentation) ' '⟩ with
        ⟨hc1, _, _⟩ | ⟨hc1, _, _⟩ | ⟨_, heq⟩
      · exfalso
        have hc1' : (nextWordLen s.string : Int) >
            (MAX_LINE_LENGTH : Int) - ((S + s.indentation : Nat) : Int) := hc1
        rw [h80] at hc1' hwM
        omega
      · exfalso
        have hc1' : (nextWordLen s.string : Int) >
            (MAX_LINE_LENGTH : Int) - ((S + s.indentation : Nat) : Int) := hc1
        rw [h80] at hc1' hwM
        omega
      · rw [heq] at ht
        subst ht
        refine ⟨?_, ?_, ?_, ?_, ?_, ?_, ?_⟩
        · show wordsOf ((s.out ++ List.replicate (S + s.indentation) ' ') ++
              s.string.take (nextWordLen s.string)) ++
            wordsOf (s.string.drop (nextWordLen s.string)) = wordsOf s₀
          apply hfitW1
          · exact wordsOf_out_repl s.out _ (B0 hc0)
          · left
            rw [headD_take s.string _ ' ' hwl1]
            exact hhead hsp
        · intro h0
          exfalso
          have h0' : S + s.indentation + nextWordLen s.string = 0 := h0
          omega
        · rcases hdropws with h | h
          · exact Or.inl h
          · exact Or.inr (Or.inl h)
        · exact hdropk _
        · show getIndent s.string ≤ M
          exact W7 hlb
        · intro hx; exact Bool.noConfusion hx
        · intro hx; exact Bool.noConfusion hx
    · -- col == 0 entry, word character ahead
      rcases wordStep_shapes S ⟨s.string, S + s.indentation, s.indentation, false,
          s.out ++ List.replicate (S + s.indentation) ' '⟩ with
        ⟨hc1, _, _⟩ | ⟨hc1, _, _⟩ | ⟨_, heq⟩
      · exfalso
        have hc1' : (nextWordLen s.string : Int) >
            (MAX_LINE_LENGTH : Int) - ((S + s.indentation : Nat) : Int) := hc1
        rw [h80] at hc1' hwM
        omega
      · exfalso
        have hc1' : (nextWordLen s.string : Int) >
            (MAX_LINE_LENGTH : Int) - ((S + s.indentation : Nat) : Int) := hc1
        rw [h80] at hc1' hwM
        omega
      · rw [heq] at ht
        subst ht
        refine ⟨?_, ?_, ?_, ?_, W6, ?_, ?_⟩
        · show wordsOf ((s.out ++ List.replicate (S + s.indentation) ' ') ++
              s.string.take (nextWordLen s.string)) ++
            wordsOf (s.string.drop (nextWordLen s.string)) = wordsOf s₀
          apply hfitW1
          · exact wordsOf_out_repl s.out _ (B0 hc0)
          · rcases Nat.eq_zero_or_pos (S + s.indentation) with hz | hpos
            · rw [hz, List.replicate_zero, List.append_nil]
              rcases B0 hc0 with h | h
              · right; right; exact Or.inl h
              · right; right; right; right; exact h
            · right; right; right; left
              exact getLast_out_repl s.out _ hpos
        · intro h0
          exfalso
          have h0' : S + s.indentation + nextWordLen s.string = 0 := h0
          omega
        · rcases hdropws with h | h
          · exact Or.inl h
          · exact Or.inr (Or.inl h)
        · exact hdropk _
        · intro hx; exact Bool.noConfusion hx
        · intro hx; exact Bool.noConfusion hx
    · -- mid-line entry
      rcases wordStep_shapes S s with ⟨hc1, hc2, heq⟩ | ⟨hc1, _, heq⟩ | ⟨_, heq⟩
      · exfalso
        have hc1' : (nextWordLen s.string : Int) >
            (MAX_LINE_LENGTH : Int) - (s.col : Int) := hc1
        rw [h80] at hc1' hwM
        rcases hc2 with h | ⟨_, h⟩ <;> omega
      · -- bare wrap, nothing consumed
        rw [heq] at ht
        subst ht
        refine ⟨?_, ?_, ?_, ⟨k, hk, hks⟩, W6, ?_, ?_⟩
        · show wordsOf (s.out ++ ['\n']) ++ wordsOf s.string = wordsOf s₀
          rw [wordsOf_append_ws s.out '\n' (by decide)]
          exact W1
        · intro _
          right
          exact getLast_concat_eq s.out '\n'
        · right; right; right; right
          exact getLast_concat_eq s.out '\n'
        · intro hx
          exact absurd (W10 hx) hc
        · intro _; rfl
      · -- word fits mid-line
        rw [heq] at ht
        subst ht
        refine ⟨?_, ?_, ?_, ?_, W6, ?_, ?_⟩
        · show wordsOf (s.out ++ s.string.take (nextWordLen s.string)) ++
            wordsOf (s.string.drop (nextWordLen s.string)) = wordsOf s₀
          apply hfitW1 s.out rfl
          rcases Bnd with h | h | h | h | h
          · left; rw [headD_take s.string _ ' ' hwl1]; exact h
          · exact absurd h hnl
          · right; right; exact Or.inl h
          · right; right; right; exact Or.inl h
          · right; right; right; right; exact h
        · intro h0
          exfalso
          have h0' : s.col + nextWordLen s.string = 0 := h0
          omega
        · rcases hdropws with h | h
          · exact Or.inl h
          · exact Or.inr (Or.inl h)
        · exact hdropk _
        · intro hx
          exact absurd (W10 hx) hc
        · intro hx
          exact absurd (W10 hx) hc

set_option maxRecDepth 4000 in
/-- C9 counterexample: an 81-character word in the manual is altered by the
hard-split branch of `print_block` (lines 336-338): the rendered output
contains the words `a*80` and `a` instead of the input's single word
`a*81`. -/
theorem claim_C9_cex :
    (renderManual 300 manual81).map wordsOf ≠ some (wordsOf manual81) := by decide

/-- C9 (amended): if every chunk of the text fits a line even after the
start column `min(start_col, indent)` and any indentation the text can carry
(bound `M` over all post-line-break suffixes), then the hard-split branch is
unreachable and a terminating `print_block` run emits exactly the words of
its input, in order — nothing dropped, duplicated, or altered. Without the
fitness bound the hard split cuts words (see the counterexample). -/
theorem claim_C9 (s₀ : Str) (col₀ ind M fuel : Nat) (out : Str)
    (HM : ∀ b ∈ nlSuffixes s₀, getIndent b ≤ M)
    (HW : ∀ k, k ≤ s₀.length →
      nextWordLen (s₀.drop k) + (if col₀ > ind then ind else col₀) + M
        ≤ MAX_LINE_LENGTH)
    (h : printBlock fuel s₀ col₀ ind = some out) :
    wordsOf out = wordsOf s₀ := by
  unfold printBlock at h
  obtain ⟨f, hPf, hfs, hout⟩ := printBlockLoop_run
    (fun s : BlockSt => (wordsOf s.out ++ wordsOf s.string = wordsOf s₀) ∧
      (s.col = 0 → s.out = [] ∨ s.out.getLast? = some '\n') ∧
      (s.string.headD ' ' = ' ' ∨ s.string.headD ' ' = '\n' ∨
        s.out = [] ∨ s.out.getLast? = some ' ' ∨ s.out.getLast? = some '\n') ∧
      (∃ k, k ≤ s₀.length ∧ s.string = s₀.drop k) ∧
      s.indentation ≤ M ∧
      (s.linebreak = true → getIndent s.string ≤ M) ∧
      (s.linebreak = true → s.col = 0))
    (if col₀ > ind then ind else col₀)
    (fun s t hP hb => wrapWordsStep s₀ M (if col₀ > ind then ind else col₀) HM HW s t hP hb)
    fuel ⟨s₀, col₀, 0, false, []⟩ out
    ⟨by simp [wordsOf, wordsAux, flushW], fun _ => Or.inl rfl,
      Or.inr (Or.inr (Or.inl rfl)), ⟨0, Nat.zero_le _, rfl⟩, Nat.zero_le M,
      fun hx => Bool.noConfusion hx, fun hx => Bool.noConfusion hx⟩ h
  have W1f := hPf.1
  rw [hfs] at W1f
  rw [show wordsOf ([] : Str) = [] from rfl, List.append_nil] at W1f
  rw [hout, wordsOf_append_ws f.out '\n' (by decide)]
  exact W1f

/-- C9 witness: the amended theorem at a concrete two-line text with a
bulleted second line, printed from column 5 with indent 3. -/
theorem claim_C9_witness :
    (∀ b ∈ nlSuffixes ("ab cd\n  - ef".data), getIndent b ≤ 4) ∧
    (∀ k, k ≤ ("ab cd\n  - ef".data).length →
      nextWordLen (("ab cd\n  - ef".data).drop k) + (if 5 > 3 then 3 else 5) + 4
        ≤ MAX_LINE_LENGTH) ∧
    (printBlock 50 ("ab cd\n  - ef".data) 5 3).map wordsOf =
      some (wordsOf ("ab cd\n  - ef".data)) := by
  refine ⟨by decide, by decide, ?_⟩
  cases hx : printBlock 50 ("ab cd\n  - ef".data) 5 3 with
  | none => exact absurd hx (by decide)
  | some o =>
    show some (wordsOf o) = _
    rw [claim_C9 ("ab cd\n  - ef".data) 5 3 4 50 o (by decide) (by decide) hx]

/-- Every line trivially starts with zero spaces. -/
theorem pfxSp_zero (l : Str) : pfxSp 0 l := rfl

/-- Membership in the tail of a list extended by one element. -/
theorem mem_drop_one_concat (ls : List Str) (x l : Str)
    (h : l ∈ (ls ++ [x]).drop 1) : l ∈ ls.drop 1 ∨ (ls ≠ [] ∧ l = x) := by
  cases ls with
  | nil => simp at h
  | cons a t =>
    simp only [List.cons_append, List.drop_succ_cons, List.drop_zero] at h
    rcases List.mem_append.mp h with h | h
    · left; simpa using h
    · right; exact ⟨List.cons_ne_nil a t, by simpa using h⟩

/-- A left slice of a break-free string is break-free. -/
theorem nlFree_pySliceTo (s : Str) (k : Int) (h : nlFree s) :
    nlFree (pySliceTo s k) := by
  unfold pySliceTo
  exact nlFree_take s _ h

/-- A right slice of a break-free string is break-free. -/
theorem nlFree_pySliceFrom (s : Str) (k : Int) (h : nlFree s) :
    nlFree (pySliceFrom s k) := by
  unfold pySliceFrom
  exact nlFree_drop s _ h

/-- A right slice short of the string's length is nonempty. -/
theorem pySliceFrom_ne_nil (s : Str) (k : Int) (hs : s ≠ [])
    (hk : k < (s.length : Int)) : pySliceFrom s k ≠ [] := by
  have hlen : 0 < s.length := List.length_pos.mpr hs
  unfold pySliceFrom
  intro hnil
  rw [List.drop_eq_nil_iff] at hnil
  by_cases h0 : k < 0
  · rw [if_pos h0] at hnil
    omega
  · rw [if_neg h0] at hnil
    omega

/-- A nonnegative left slice is a take. -/
theorem pySliceTo_nonneg (s : Str) (k : Int) (h : 0 ≤ k) :
    pySliceTo s k = s.take k.toNat := by
  unfold pySliceTo
  rw [if_neg (by omega)]

/-- A nonnegative right slice is a drop. -/
theorem pySliceFrom_nonneg (s : Str) (k : Int) (h : 0 ≤ k) :
    pySliceFrom s k = s.drop k.toNat := by
  unfold pySliceFrom
  rw [if_neg (by omega)]

/-- A line of exactly `k` spaces starts with `k` spaces. -/
theorem pfxSp_repl_self (k : Nat) : pfxSp k (List.replicate k ' ') := by
  have := pfxSp_replicate k []
  rwa [List.append_nil] at this

/-- The word-emission logic preserves the bulleted-paragraph decomposition:
a fitting chunk extends the open line, a hard split or a wrap closes it, and
every line closed after the first starts with the `S + I` space prefix. -/
theorem bulletWordAux (out₀ : Str) (S I : Nat) (done : List Str) (cur : Str)
    (s' : BlockSt)
    (hstr : s'.string ≠ []) (hnlstr : nlFree s'.string)
    (hind : s'.indentation = I) (hlb : s'.linebreak = false)
    (hout : s'.out = out₀ ++ joinNl done ++ cur)
    (hnlcur : nlFree cur) (hdone : ∀ l ∈ done, nlFree l)
    (hdp : ∀ l ∈ done.drop 1, pfxSp (S + I) l)
    (hcur : done ≠ [] → cur = [] ∨ pfxSp (S + I) cur)
    (hlen : cur.length = s'.col)
    (hzero : cur = [] → done = [] ∨ S + I = 0) :
    bulletInv out₀ S I (wordStep S s') := by
  have hwl1 : 1 ≤ nextWordLen s'.string :=
    Nat.pos_of_ne_zero (fun hz => hstr (nextWordLen_zero _ hz))
  have hwle := nextWordLen_le_length s'.string
  have hclosed : done ≠ [] → pfxSp (S + I) cur ∨ (cur = [] ∧ S + I = 0) := by
    intro hne
    rcases hcur hne with hc | hc
    · rcases hzero hc with hd | hd
      · exact absurd hd hne
      · exact Or.inr ⟨hc, hd⟩
    · exact Or.inl hc
  rcases wordStep_shapes S s' with ⟨hc1, _, heq⟩ | ⟨hc1, _, heq⟩ | ⟨hc1, heq⟩ <;> rw [heq]
  · -- hard split: close the line, cut the chunk
    refine ⟨hlb, hind, nlFree_pySliceFrom _ _ hnlstr,
      done ++ [cur ++ pySliceTo s'.string ((MAX_LINE_LENGTH : Int) - (s'.col : Int))], [],
      ?_, by simp [nlFree], ?_, ?_, fun _ => Or.inl rfl, rfl, ?_⟩
    · show (s'.out ++ _) ++ _ = _
      rw [hout, joinNl_concat]
      simp [List.append_assoc]
    · intro l hl
      rcases List.mem_append.mp hl with h | h
      · exact hdone l h
      · rw [List.mem_singleton.mp h]
        exact nlFree_append _ _ hnlcur (nlFree_pySliceTo _ _ hnlstr)
    · intro l hl
      rcases mem_drop_one_concat done _ l hl with h | ⟨hne, hlx⟩
      · exact hdp l h
      · subst hlx
        rcases hclosed hne with h | ⟨hc, hz⟩
        · exact pfxSp_append _ _ _ h
        · rw [hz, hc]
          exact pfxSp_zero _
    · intro _
      left
      apply pySliceFrom_ne_nil s'.string _ hstr
      rw [maxLineLength_eq] at hc1 ⊢
      have hcast : (nextWordLen s'.string : Int) ≤ (s'.string.length : Int) := by
        exact_mod_cast hwle
      omega
  · -- bare wrap: close the line, keep the text
    refine ⟨hlb, hind, hnlstr, done ++ [cur], [],
      ?_, by simp [nlFree], ?_, ?_, fun _ => Or.inl rfl, rfl, fun _ => Or.inl hstr⟩
    · show s'.out ++ _ = _
      rw [hout, joinNl_concat]
      simp [List.append_assoc]
    · intro l hl
      rcases List.mem_append.mp hl with h | h
      · exact hdone l h
      · rw [List.mem_singleton.mp h]
        exact hnlcur
    · intro l hl
      rcases mem_drop_one_concat done _ l hl with h | ⟨hne, hlx⟩
      · exact hdp l h
      · subst hlx
        rcases hclosed hne with h | ⟨hc, hz⟩
        · exact h
        · rw [hz, hc]
          exact pfxSp_zero _
  · -- the chunk fits: extend the open line
    refine ⟨hlb, hind, nlFree_drop _ _ hnlstr, done,
      cur ++ s'.string.take (nextWordLen s'.string),
      ?_, nlFree_append _ _ hnlcur (nlFree_take _ _ hnlstr), hdone, hdp, ?_, ?_, ?_⟩
    · show s'.out ++ _ = _
      rw [hout]
      simp [List.append_assoc]
    · intro hne
      right
      rcases hclosed hne with h | ⟨hc, hz⟩
      · exact pfxSp_append _ _ _ h
      · rw [hz]
        exact pfxSp_zero _
    · show _ = s'.col + _
      simp only [List.length_append, List.length_take]
      omega
    · intro h0
      exfalso
      have h0' : s'.col + nextWordLen s'.string = 0 := h0
      omega

/-- One loop iteration preserves the bulleted-paragraph invariant (or leaves
the just-after-line-break start state, which only the first iteration
occupies): the paragraph is break-free, so its measured indentation `I`
persists and every continuation line opens with `S + I` spaces. -/
theorem bulletWrapStep (b out₀ : Str) (S : Nat) (hbh : b.headD 'x' = ' ')
    (hnf : nlFree b) (s t : BlockSt)
    (hP : bulletInv out₀ S (getIndent b) s ∨
      (s.string = b ∧ s.col = 0 ∧ s.indentation = 0 ∧ s.linebreak = true ∧ s.out = out₀))
    (hb : blockIter S s = some t) :
    bulletInv out₀ S (getIndent b) t ∨
      (t.string = b ∧ t.col = 0 ∧ t.indentation = 0 ∧ t.linebreak = true ∧
        t.out = out₀) := by
  have hbne : b ≠ [] := by
    intro h
    rw [h] at hbh
    exact absurd hbh (by decide)
  rcases hP with hQ | ⟨hs, hc0i, hi0, hlbi, houti⟩
  · left
    obtain ⟨hlbQ, hindQ, hnlQ, done, cur, houtQ, hnlcur, hdone, hdp, hcur, hlen, _⟩ := hQ
    rcases blockIter_shapes S s t hb with ⟨hnl, _⟩ | ⟨hne, hnl, hcase⟩
    · exfalso
      cases hsx : s.string with
      | nil => rw [hsx] at hnl; exact absurd hnl (by decide)
      | cons c rest =>
        rw [hsx] at hnl
        have hcnl : c = '\n' := by simpa using hnl
        subst hcnl
        exact hnlQ (by rw [hsx]; exact List.mem_cons_self _ _)
    · rcases hcase with ⟨hc0, hsp, hlb2, ht⟩ | ⟨_, _, hlb2, _⟩ | ⟨hc0, hsp, ht⟩ | ⟨hc, ht⟩
      · -- space-dropping continue
        rw [hindQ] at ht
        subst ht
        have hcurnil : cur = [] := List.length_eq_zero.mp (by rw [hlen, hc0])
        refine ⟨rfl, rfl, ?_, done,
          List.replicate (S + getIndent b) ' ', ?_, nlFree_replicate _, hdone, hdp,
          fun _ => Or.inr (pfxSp_repl_self _), by simp, ?_⟩
        · show nlFree s.string.tail
          rw [← List.drop_one]
          exact nlFree_drop _ 1 hnlQ
        · show s.out ++ _ = _
          rw [houtQ, hcurnil]
          simp
        · intro h0
          right
          exact h0
      · exfalso
        rw [hlbQ] at hlb2
        exact Bool.noConfusion hlb2
      · -- col = 0, word character ahead
        rw [hindQ] at ht
        subst ht
        have hcurnil : cur = [] := List.length_eq_zero.mp (by rw [hlen, hc0])
        apply bulletWordAux out₀ S (getIndent b) done (List.replicate (S + getIndent b) ' ')
        · exact hne
        · exact hnlQ
        · rfl
        · rfl
        · show s.out ++ _ = _
          rw [houtQ, hcurnil]
          simp
        · exact nlFree_replicate _
        · exact hdone
        · exact hdp
        · intro _
          exact Or.inr (pfxSp_repl_self _)
        · simp
        · intro hrn
          right
          have := congrArg List.length hrn
          simpa using this
      · -- mid-line
        subst ht
        apply bulletWordAux out₀ S (getIndent b) done cur s hne hnlQ hindQ hlbQ houtQ
          hnlcur hdone hdp hcur hlen
        intro hcn
        exfalso
        apply hc
        rw [← hlen, hcn]
        rfl
  · -- the start state: the first iteration measures the indentation
    rcases blockIter_shapes S s t hb with ⟨hnl, _⟩ | ⟨hne, hnl, hcase⟩
    · exfalso
      rw [hs] at hnl
      cases hbx : b with
      | nil => exact absurd hbx hbne
      | cons c rest =>
        rw [hbx] at hbh hnl
        have hc' : c = ' ' := by simpa using hbh
        subst hc'
        simp at hnl
    · rcases hcase with ⟨_, _, hlb2, _⟩ | ⟨_, hsp, hlb2, ht⟩ | ⟨_, hsp, _⟩ | ⟨hcx, _⟩
      · exfalso
        rw [hlbi] at hlb2
        exact Bool.noConfusion hlb2
      · -- measuring entry
        left
        rw [hs, hi0, houti] at ht
        subst ht
        apply bulletWordAux out₀ S (getIndent b) [] (List.replicate (S + 0) ' ')
        · exact hbne
        · exact hnf
        · rfl
        · rfl
        · show out₀ ++ _ = _
          simp [joinNl]
        · exact nlFree_replicate _
        · intro l hl
          exact absurd hl (List.not_mem_nil l)
        · intro l hl
          exact absurd hl (List.not_mem_nil l)
        · intro hx
          exact absurd rfl hx
        · simp
        · intro _
          exact Or.inl rfl
      · exfalso
        apply hsp
        rw [hs]
        cases hbx : b with
        | nil => exact absurd hbx hbne
        | cons c rest =>
          rw [hbx] at hbh
          have hc' : c = ' ' := by simpa using hbh
          subst hc'
          rfl
      · exact absurd hc0i hcx

/-- Closing the open line with a break keeps all closed lines in bound. -/
theorem closedOk_close (w : Nat) (a : Str) (k : Nat) (h : closedOk w a k = true)
    (hl : lastLen a k ≤ w) : closedOk w (a ++ ['\n']) k = true := by
  rw [closedOk_append, h, closedOk_nl]
  simp [hl]

/-- A break resets the column. -/
theorem lastLen_close (a : Str) (k : Nat) : lastLen (a ++ ['\n']) k = 0 := by
  rw [lastLen_append]
  rfl

/-- Appending break-free text closes no line. -/
theorem closedOk_app_nlFree (w : Nat) (a x : Str) (k : Nat)
    (h : closedOk w a k = true) (hx : nlFree x) : closedOk w (a ++ x) k = true := by
  rw [closedOk_append, h, closedOk_nlFree w x _ hx]
  rfl

/-- The word-emission logic preserves the width invariant: a fitting chunk
stays within the line, the hard split fills the line to exactly
`MAX_LINE_LENGTH`, and the bare wrap closes the line as is. -/
theorem widthWordAux (col₀ S : Nat) (s' : BlockSt)
    (hcol : s'.col ≤ MAX_LINE_LENGTH)
    (hI2 : lastLen s'.out col₀ = s'.col)
    (hI3 : closedOk MAX_LINE_LENGTH s'.out col₀ = true)
    (hI4 : S + s'.indentation ≤ MAX_LINE_LENGTH)
    (hI5 : ∀ b ∈ nlSuffixes s'.string, S + getIndent b ≤ MAX_LINE_LENGTH)
    (hnl : s'.string.headD ' ' ≠ '\n')
    (hlb : s'.linebreak = false) :
    widthInv col₀ S (wordStep S s') := by
  have h80 : MAX_LINE_LENGTH = 80 := rfl
  have hwle := nextWordLen_le_length s'.string
  have hchunk := take_nextWordLen_nlFree s'.string hnl
  rcases wordStep_shapes S s' with ⟨hc1, _, heq⟩ | ⟨hc1, _, heq⟩ | ⟨hc1, heq⟩ <;> rw [heq]
  · -- hard split
    have hrem : ((MAX_LINE_LENGTH : Int) - (s'.col : Int)).toNat
        = MAX_LINE_LENGTH - s'.col := by
      rw [h80] at hcol ⊢
      omega
    have hslice : pySliceTo s'.string ((MAX_LINE_LENGTH : Int) - (s'.col : Int))
        = s'.string.take (MAX_LINE_LENGTH - s'.col) := by
      rw [pySliceTo_nonneg _ _ (by rw [h80] at hcol ⊢; omega), hrem]
    have hsnl : nlFree (s'.string.take (MAX_LINE_LENGTH - s'.col)) := by
      have hle : MAX_LINE_LENGTH - s'.col ≤ nextWordLen s'.string := by
        rw [h80] at hc1 ⊢
        omega
      rw [show s'.string.take (MAX_LINE_LENGTH - s'.col)
            = (s'.string.take (nextWordLen s'.string)).take (MAX_LINE_LENGTH - s'.col) by
          rw [List.take_take, min_eq_left hle]]
      exact nlFree_take _ _ hchunk
    refine ⟨Nat.zero_le _, ?_, ?_, hI4, ?_, ?_, fun _ => rfl⟩
    · show lastLen ((s'.out ++ _) ++ ['\n']) col₀ = 0
      exact lastLen_close _ _
    · show closedOk MAX_LINE_LENGTH ((s'.out ++ _) ++ ['\n']) col₀ = true
      apply closedOk_close
      · rw [hslice]
        exact closedOk_app_nlFree _ _ _ _ hI3 hsnl
      · rw [hslice, lastLen_append, lastLen_nlFree _ _ hsnl, hI2]
        have := List.length_take_le (MAX_LINE_LENGTH - s'.col) s'.string
        omega
    · intro b hbm
      apply hI5
      have hbm' : b ∈ nlSuffixes (pySliceFrom s'.string
          ((MAX_LINE_LENGTH : Int) - (s'.col : Int))) := hbm
      rw [pySliceFrom_nonneg _ _ (by rw [h80] at hcol ⊢; omega)] at hbm'
      exact nlSuffixes_drop_subset _ _ hbm'
    · intro hx
      have hx' : s'.linebreak = true := hx
      rw [hlb] at hx'
      exact Bool.noConfusion hx'
  · -- bare wrap
    refine ⟨Nat.zero_le _, lastLen_close _ _, ?_, hI4, hI5, ?_, fun _ => rfl⟩
    · apply closedOk_close _ _ _ hI3
      rw [hI2]
      exact hcol
    · intro hx
      have hx' : s'.linebreak = true := hx
      rw [hlb] at hx'
      exact Bool.noConfusion hx'
  · -- the chunk fits
    have hfit : s'.col + nextWordLen s'.string ≤ MAX_LINE_LENGTH := by
      rw [h80] at hc1 ⊢
      omega
    refine ⟨hfit, ?_, closedOk_app_nlFree _ _ _ _ hI3 hchunk, hI4, ?_, ?_, ?_⟩
    · show lastLen (s'.out ++ _) col₀ = s'.col + nextWordLen s'.string
      rw [lastLen_append, lastLen_nlFree _ _ hchunk, hI2, List.length_take,
        min_eq_left hwle]
    · intro b hbm
      exact hI5 b (nlSuffixes_drop_subset _ _ hbm)
    · intro hx
      have hx' : s'.linebreak = true := hx
      rw [hlb] at hx'
      exact Bool.noConfusion hx'
    · intro hx
      have hx' : s'.linebreak = true := hx
      rw [hlb] at hx'
      exact Bool.noConfusion hx'

/-- One loop iteration preserves the width invariant. -/
theorem wrapWidthStep (col₀ S : Nat) (hS : S ≤ MAX_LINE_LENGTH) (s t : BlockSt)
    (hP : widthInv col₀ S s) (hb : blockIter S s = some t) : widthInv col₀ S t := by
  obtain ⟨I1, I2, I3, I4, I5, I6, I7⟩ := hP
  rcases blockIter_shapes S s t hb with ⟨hnl, ht⟩ | ⟨hne, hnl, hcase⟩
  · -- explicit break
    subst ht
    cases hsx : s.string with
    | nil => rw [hsx] at hnl; exact absurd hnl (by decide)
    | cons c rest =>
      rw [hsx] at hnl
      have hcnl : c = '\n' := by simpa using hnl
      subst hcnl
      refine ⟨Nat.zero_le _, lastLen_close _ _, ?_, by simpa using hS, ?_, ?_, fun _ => rfl⟩
      · apply closedOk_close _ _ _ I3
        rw [I2]
        exact I1
      · intro b hbm
        exact I5 b (nlSuffixes_tail_subset _ hbm)
      · intro _
        show S + getIndent s.string.tail ≤ MAX_LINE_LENGTH
        apply I5
        rw [hsx]
        show rest ∈ (if ('\n' : Char) = '\n' then [rest] else []) ++ nlSuffixes rest
        rw [if_pos rfl]
        exact List.mem_append_left _ (List.mem_singleton.mpr rfl)
  · rcases hcase with ⟨hc0, hsp, hlb2, ht⟩ | ⟨hc0, hsp, hlb2, ht⟩ | ⟨hc0, hsp, ht⟩ | ⟨hc, ht⟩
    · -- space-dropping continue
      subst ht
      refine ⟨I4, ?_, closedOk_app_nlFree _ _ _ _ I3 (nlFree_replicate _), I4, ?_, ?_, ?_⟩
      · show lastLen (s.out ++ _) col₀ = S + s.indentation
        rw [lastLen_append, lastLen_nlFree _ _ (nlFree_replicate _), I2, hc0,
          List.length_replicate]
        omega
      · intro b hbm
        exact I5 b (nlSuffixes_tail_subset _ hbm)
      · intro hx
        exact Bool.noConfusion hx
      · intro hx
        exact Bool.noConfusion hx
    · -- measuring entry
      subst ht
      apply widthWordAux
      · exact I4
      · show lastLen (s.out ++ _) col₀ = S + s.indentation
        rw [lastLen_append, lastLen_nlFree _ _ (nlFree_replicate _), I2, hc0,
          List.length_replicate]
        omega
      · exact closedOk_app_nlFree _ _ _ _ I3 (nlFree_replicate _)
      · exact I6 hlb2
      · exact I5
      · exact hnl
      · rfl
    · -- word-character entry
      subst ht
      apply widthWordAux
      · exact I4
      · show lastLen (s.out ++ _) col₀ = S + s.indentation
        rw [lastLen_append, lastLen_nlFree _ _ (nlFree_replicate _), I2, hc0,
          List.length_replicate]
        omega
      · exact closedOk_app_nlFree _ _ _ _ I3 (nlFree_replicate _)
      · exact I4
      · exact I5
      · exact hnl
      · rfl
    · -- mid-line
      subst ht
      have hlbf : s.linebreak = false := by
        cases hx : s.linebreak with
        | false => rfl
        | true => exact absurd (I7 hx) hc
      exact widthWordAux col₀ S s I1 I2 I3 I4 I5 hnl hlbf

/-- C8 counterexample: `print_help` emits the `Usage:` line with no width
check, so the 88-character usage line of `cmd8` exceeds `MAX_LINE_LENGTH`
even though rendering completes. -/
theorem claim_C8_cex :
    (printHelp 100 cmd8).map (fun o => okLines MAX_LINE_LENGTH o 0) = some false := by
  decide

/-- C8 (amended): the width guarantee holds for `print_block` itself, under
the fitness conditions the help layout normally satisfies. Part one: if the
starting column is within `MAX_LINE_LENGTH` and the clamped start column
plus any indentation measurable after a line break fits a line, every line a
terminating `print_block` run closes — counting the first from the starting
column — is at most `MAX_LINE_LENGTH` wide, and the run ends at column 0.
Part two: within a break-free indented (bulleted) paragraph entered right
after a line break, every wrapped continuation line after the first starts
with `start_col + get_indent(paragraph)` spaces — it is indented at least to
the column where the bullet's content starts. Without the fitness
hypotheses the claim fails (see the counterexample). -/
theorem claim_C8 :
    (∀ (string : Str) (col₀ ind fuel : Nat) (out : Str),
        col₀ ≤ MAX_LINE_LENGTH →
        (∀ b ∈ nlSuffixes string,
          (if col₀ > ind then ind else col₀) + getIndent b ≤ MAX_LINE_LENGTH) →
        printBlock fuel string col₀ ind = some out →
        closedOk MAX_LINE_LENGTH out col₀ = true ∧ lastLen out col₀ = 0) ∧
    (∀ (b out₀ : Str) (S fuel : Nat) (out : Str),
        b.headD 'x' = ' ' → nlFree b →
        printBlockLoop S fuel ⟨b, 0, 0, true, out₀⟩ = some out →
        ∃ ls : List Str, out = out₀ ++ joinNl ls ∧ (∀ l ∈ ls, nlFree l) ∧
          ∀ l ∈ ls.drop 1, pfxSp (S + getIndent b) l) := by
  constructor
  · intro string col₀ ind fuel out hc0 hnls h
    unfold printBlock at h
    have hS : (if col₀ > ind then ind else col₀) ≤ MAX_LINE_LENGTH := by
      split <;> omega
    obtain ⟨f, hPf, hfs, hout⟩ := printBlockLoop_run
      (widthInv col₀ (if col₀ > ind then ind else col₀))
      (if col₀ > ind then ind else col₀)
      (fun s t hP hb => wrapWidthStep col₀ _ hS s t hP hb)
      fuel ⟨string, col₀, 0, false, []⟩ out
      ⟨hc0, rfl, rfl, by simpa using hS, hnls,
        fun hx => Bool.noConfusion hx, fun hx => Bool.noConfusion hx⟩ h
    obtain ⟨F1, F2, F3, _⟩ := hPf
    subst hout
    exact ⟨closedOk_close _ _ _ F3 (by rw [F2]; exact F1), lastLen_close _ _⟩
  · intro b out₀ S fuel out hbh hnf h
    obtain ⟨f, hPf, hfs, hout⟩ := printBlockLoop_run
      (fun s => bulletInv out₀ S (getIndent b) s ∨
        (s.string = b ∧ s.col = 0 ∧ s.indentation = 0 ∧ s.linebreak = true ∧
          s.out = out₀)) S
      (fun s t hP hb => bulletWrapStep b out₀ S hbh hnf s t hP hb)
      fuel ⟨b, 0, 0, true, out₀⟩ out
      (Or.inr ⟨rfl, rfl, rfl, rfl, rfl⟩) h
    rcases hPf with hQ | ⟨hsb, _, _, _, _⟩
    · obtain ⟨_, _, _, done, cur, hout', hnlcur, hdone, hdp, hcur, hlen, hK8⟩ := hQ
      refine ⟨done ++ [cur], ?_, ?_, ?_⟩
      · rw [hout, hout', joinNl_concat]
        simp [List.append_assoc]
      · intro l hl
        rcases List.mem_append.mp hl with hm | hm
        · exact hdone l hm
        · rw [List.mem_singleton.mp hm]
          exact hnlcur
      · intro l hl
        rcases mem_drop_one_concat done cur l hl with hm | ⟨hne, hlx⟩
        · exact hdp l hm
        · subst hlx
          rcases hcur hne with hcnil | hp
          · have hc0 : f.col = 0 := by rw [← hlen, hcnil]; rfl
            rcases hK8 hc0 with hx | hx
            · exact absurd hfs hx
            · rw [hx]
              exact pfxSp_zero _
          · exact hp
    · exfalso
      rw [hfs] at hsb
      rw [← hsb] at hbh
      exact absurd hbh (by decide)

/-- C8 witness: part one at a short description printed from column 10 with
indent 4; part two at a bulleted paragraph entered after a line break with
start column 3. -/
theorem claim_C8_witness :
    (10 ≤ MAX_LINE_LENGTH ∧
      (∀ b ∈ nlSuffixes ("ab cd".data),
        (if 10 > 4 then 4 else 10) + getIndent b ≤ MAX_LINE_LENGTH) ∧
      (printBlock 50 ("ab cd".data) 10 4).map
        (fun o => okLines MAX_LINE_LENGTH o 10) = some true) ∧
    (("  - ef gh".data).headD 'x' = ' ' ∧ nlFree ("  - ef gh".data) ∧
      ∃ ls : List Str,
        printBlockLoop 3 40 ⟨"  - ef gh".data, 0, 0, true, "XY".data⟩ =
          some ("XY".data ++ joinNl ls) ∧
        (∀ l ∈ ls, nlFree l) ∧
        ∀ l ∈ ls.drop 1, pfxSp (3 + getIndent ("  - ef gh".data)) l) := by
  refine ⟨⟨by decide, by decide, ?_⟩, by decide, by unfold nlFree; decide, ?_⟩
  · cases hx : printBlock 50 ("ab cd".data) 10 4 with
    | none => exact absurd hx (by decide)
    | some o =>
      show some (okLines MAX_LINE_LENGTH o 10) = some true
      obtain ⟨h1, h2⟩ := claim_C8.1 ("ab cd".data) 10 4 50 o (by decide) (by decide) hx
      simp [okLines, h1, h2]
  · cases hx : printBlockLoop 3 40 ⟨"  - ef gh".data, 0, 0, true, "XY".data⟩ with
    | none => exact absurd hx (by decide)
    | some o =>
      obtain ⟨ls, hls, hnl, hp⟩ :=
        claim_C8.2 ("  - ef gh".data) ("XY".data) 3 40 o (by decide)
          (by unfold nlFree; decide) hx
      exact ⟨ls, by rw [← hls], hnl, hp⟩
